import Mathlib

/-!
# Verification of `pipe_base` core algorithms

Shallow embedding of the algorithmic core of the LSST `pipe_base` repository:

* `QuantumGraph.traverse` (`python/lsst/pipe/base/graph.py`),
* `DatasetTypeNode._from_edges` (`python/lsst/pipe/base/pipeline_graph/_dataset_types.py`),
* the visualization merge engine (`pipeline_graph/visualization/_merge.py`),
* the visualization layout engine (`pipeline_graph/visualization/_layout.py`),
* the status annotator (`pipeline_graph/visualization/_status.py`),

together with theorems settling the specification claims about those
functions.  Python `dict`s are embedded as insertion-ordered association
lists (lookup of the most recent binding), Python exceptions as `Except` /
`Option` results, and machine integers as `Nat` (no arithmetic in the
sources can overflow `int`, which is unbounded in Python anyway).
-/

namespace PipeBase

/-! ## Embedding of `graph.py`: `QuantumGraph` and its `traverse` method

Collaborator types from `lsst.daf.butler` (`DatasetRef`, `Quantum`, `DataId`)
are narrowed to exactly the fields `traverse` reads.  `DataId` values are
abstracted as `Nat` (any type with decidable equality would do: `traverse`
only uses them as dictionary keys). -/

/-- A dataset-type definition as threaded through `_from_edges`
(`lsst.daf.butler.DatasetType`), abstracted to an opaque comparable value. -/
abbrev DatasetTypeDef := Nat

/-- `WriteEdge`, narrowed to the fields `_from_edges` reads: the producing
task's label and the dataset-type definition its `_resolve_dataset_type`
would contribute. -/
structure WriteEdge where
  taskLabel : String
  connectionDatasetType : DatasetTypeDef
deriving DecidableEq, Repr

/-- `ReadEdge`, narrowed to the fields relevant to resolution: consuming
task label, optional component access, the `deferQueryConstraint` flag, the
prerequisite-connection flag, and the dataset-type definition the consuming
connection declares. -/
structure ReadEdge where
  taskLabel : String
  component : Option String
  deferQueryConstraint : Bool
  isPrerequisiteConn : Bool
  connectionDatasetType : DatasetTypeDef
deriving DecidableEq, Repr

/-- The errors `_from_edges` can raise.  `duplicateOutput key second first`
embeds `DuplicateOutputError(f"Dataset type {key!r} is produced by both
{second!r} and {first!r}.")`, carrying the dataset-type name and both
producing task labels.  `connectionTypeConsistency` stands for the
incompatibility errors raised inside `ReadEdge._resolve_dataset_type`
(modelled from the spec), and `assertionFailed` for the two `assert`
statements at the end of `_from_edges`. -/
inductive ResolveError where
  | duplicateOutput (datasetTypeName secondProducer firstProducer : String)
  | connectionTypeConsistency (taskLabel : String)
  | assertionFailed
deriving DecidableEq, Repr

/-- The resolved `DatasetTypeNode` (dataclass fields only). -/
structure DatasetTypeNode where
  datasetType : DatasetTypeDef
  isInitialQueryConstraint : Bool
  isPrerequisite : Bool
deriving DecidableEq, Repr

/-- Modelled from the spec: `WriteEdge._resolve_dataset_type` (defined in
`_edges.py`, not among these sources).  The spec says the single write edge
"may narrow/replace the canonical definition" and that the canonical
definition is "the registry dataset type's … or (if there isn't one) the
one defined by the producing task": keep the registry definition when
present, otherwise use the producer-declared one. -/
def WriteEdge.resolveDatasetType (edge : WriteEdge) (current : Option DatasetTypeDef) :
    DatasetTypeDef :=
  current.getD edge.connectionDatasetType

/-- Modelled from the spec: `ReadEdge._resolve_dataset_type` (defined in
`_edges.py`, not among these sources).  Per the spec's resolver algorithm:
read edges decide whether the dataset is a prerequisite (all consuming
edges must agree, and a dataset produced in-graph can never be a
prerequisite — both violations are hard errors naming the offending task);
the dataset participates as an initial-query constraint only if every
consuming edge requests it (any `deferQueryConstraint` opts everyone out,
and prerequisites are excluded from the discovery query); the definition is
kept when already known, otherwise taken from the consuming connection. -/
def ReadEdge.resolveDatasetType (edge : ReadEdge) (current : Option DatasetTypeDef)
    (isInitialQueryConstraint : Bool) (isPrerequisite : Option Bool) :
    Except ResolveError (Option DatasetTypeDef × Bool × Option Bool) :=
  match isPrerequisite with
  | some b =>
    if b = edge.isPrerequisiteConn then
      .ok (some (current.getD edge.connectionDatasetType),
        isInitialQueryConstraint && !edge.deferQueryConstraint && !edge.isPrerequisiteConn,
        some b)
    else .error (.connectionTypeConsistency edge.taskLabel)
  | none =>
    .ok (some (current.getD edge.connectionDatasetType),
      isInitialQueryConstraint && !edge.deferQueryConstraint && !edge.isPrerequisiteConn,
      some edge.isPrerequisiteConn)

/-- The write-edge loop of `_from_edges`: `producer` starts as `None`; a
second write edge raises `DuplicateOutputError` naming the second edge's
task and the recorded producer; otherwise the edge records itself as
producer, resolves the dataset type, and forces `is_prerequisite = False`
and `is_initial_query_constraint = False`. -/
def resolveWriteEdges :
    List WriteEdge → Option DatasetTypeDef → Bool → Option Bool → Option String → String →
      Except ResolveError (Option DatasetTypeDef × Bool × Option Bool × Option String)
  | [], datasetType, iqc, ip, producer, _ => .ok (datasetType, iqc, ip, producer)
  | edge :: rest, datasetType, _iqc, _ip, producer, keyName =>
    match producer with
    | some p => .error (.duplicateOutput keyName edge.taskLabel p)
    | none =>
      resolveWriteEdges rest (some (edge.resolveDatasetType datasetType)) false
        (some false) (some edge.taskLabel) keyName

/-- The read-edge loop of `_from_edges` (after the component sort). -/
def resolveReadEdges :
    List ReadEdge → Option DatasetTypeDef → Bool → Option Bool →
      Except ResolveError (Option DatasetTypeDef × Bool × Option Bool)
  | [], datasetType, iqc, ip => .ok (datasetType, iqc, ip)
  | edge :: rest, datasetType, iqc, ip =>
    match edge.resolveDatasetType datasetType iqc ip with
    | .error e => .error e
    | .ok (datasetType', iqc', ip') => resolveReadEdges rest datasetType' iqc' ip'

/-- `DatasetTypeNode._from_edges`.  `keyName` is `key.name`;
`registryDatasetType` is the result of `registry.getDatasetType(key.name)`
(`none` embeds `MissingDatasetTypeError`); `writeEdges`/`readEdges` are the
`instance` attributes of the in-edges and out-edges of `key` in the graph,
in iteration order; `previous` is the previous resolution.  The
memoization step returns `previous` unchanged when its definition equals
the fresh registry lookup; otherwise write edges are scanned (zero or one
allowed), then read edges, sorted so that edges that are not component
accesses come first (`sort` with key `component is not None` is stable).
The two trailing `assert`s are embedded as `assertionFailed`. -/
def DatasetTypeNodeFromEdges (keyName : String) (registryDatasetType : Option DatasetTypeDef)
    (writeEdges : List WriteEdge) (readEdges : List ReadEdge)
    (previous : Option DatasetTypeNode) : Except ResolveError DatasetTypeNode :=
  match previous with
  | some prev =>
    if some prev.datasetType = registryDatasetType then .ok prev
    else resolveFreshDatasetTypeNode keyName registryDatasetType writeEdges readEdges
  | none => resolveFreshDatasetTypeNode keyName registryDatasetType writeEdges readEdges
where
  resolveFreshDatasetTypeNode (keyName : String)
      (registryDatasetType : Option DatasetTypeDef)
      (writeEdges : List WriteEdge) (readEdges : List ReadEdge) :
      Except ResolveError DatasetTypeNode :=
    match resolveWriteEdges writeEdges registryDatasetType true none none keyName with
    | .error e => .error e
    | .ok (datasetType, iqc, ip, _) =>
      match resolveReadEdges
          (readEdges.filter (fun e => e.component = none) ++
            readEdges.filter (fun e => e.component ≠ none))
          datasetType iqc ip with
      | .error e => .error e
      | .ok (datasetType', iqc', ip') =>
        match datasetType', ip' with
        | some dt, some p => .ok ⟨dt, iqc', p⟩
        | _, _ => .error .assertionFailed

/-! ## Embedding of `_status.py`: `QuantumProvenanceGraphStatusAnnotator`

The exported networkx graph is embedded as a node list plus a `status`
attribute map; `xgraph.nodes[key]["status"] = value` raises `KeyError` for
a key that is not a node, embedded as an `Except` error. -/

/-- `NodeType` from `pipeline_graph/_nodes.py` (only the constructors the
annotator uses matter here). -/
inductive NodeType where
  | task
  | taskInit
  | datasetType
deriving DecidableEq, Repr

/-- `NodeKey`: a typed, hashable vertex identifier. -/
structure NodeKey where
  nodeType : NodeType
  name : String
deriving DecidableEq, Repr

/-- The fields of a `qpg.Summary` task entry read by the annotator. -/
structure TaskSummary where
  nExpected : Nat
  nSuccessful : Nat
  nFailed : Nat
  nBlocked : Nat
  nWonky : Nat
deriving DecidableEq, Repr

/-- The fields of a `qpg.Summary` dataset-type entry read by the annotator. -/
structure DatasetTypeSummary where
  nExpected : Nat
  nVisible : Nat
  nShadowed : Nat
deriving DecidableEq, Repr

/-- `qpg.Summary`, narrowed to its `tasks` and `datasets` dicts, embedded as
insertion-ordered association lists. -/
structure QPGSummary where
  tasks : List (String × TaskSummary)
  datasets : List (String × DatasetTypeSummary)
deriving DecidableEq, Repr

/-- `TaskStatusInfo` (dataclass); `ready`/`running` default to `None`. -/
structure TaskStatusInfo where
  expected : Nat
  succeded : Nat
  failed : Nat
  blocked : Nat
  ready : Option Nat := none
  running : Option Nat := none
  wonky : Option Nat := none
deriving DecidableEq, Repr

/-- `DatasetTypeStatusInfo` (dataclass). -/
structure DatasetTypeStatusInfo where
  expected : Nat
  produced : Nat
deriving DecidableEq, Repr

/-- The value stored under the `"status"` node attribute. -/
inductive StatusInfo where
  | task (info : TaskStatusInfo)
  | datasetType (info : DatasetTypeStatusInfo)
deriving DecidableEq, Repr

/-- The exported graph as seen by the annotator: its node set and the
`"status"` attribute of each node (`none` = attribute absent). -/
structure StatusGraph where
  nodes : List NodeKey
  status : NodeKey → Option StatusInfo

/-- `xgraph.nodes[key]["status"] = value`: `KeyError` if `key` is absent. -/
def setNodeStatus (g : StatusGraph) (key : NodeKey) (v : StatusInfo) :
    Except String StatusGraph :=
  if key ∈ g.nodes then
    .ok { g with status := fun k => if k = key then some v else g.status k }
  else .error "KeyError"

/-- The `TaskStatusInfo` built in the loop body (`ready`/`running` stay
`None`; the note about bps in the source is a comment only). -/
def taskStatusInfoOf (ts : TaskSummary) : TaskStatusInfo :=
  { expected := ts.nExpected, succeded := ts.nSuccessful, failed := ts.nFailed,
    blocked := ts.nBlocked, wonky := some ts.nWonky }

/-- The `DatasetTypeStatusInfo` built in the loop body:
`produced = n_visible + n_shadowed`. -/
def datasetTypeStatusInfoOf (ds : DatasetTypeSummary) : DatasetTypeStatusInfo :=
  { expected := ds.nExpected, produced := ds.nVisible + ds.nShadowed }

/-- The first loop of `__call__`: one status assignment per task entry. -/
def annotateTasks : List (String × TaskSummary) → StatusGraph → Except String StatusGraph
  | [], g => .ok g
  | (label, ts) :: rest, g =>
    match setNodeStatus g ⟨.task, label⟩ (.task (taskStatusInfoOf ts)) with
    | .error e => .error e
    | .ok g' => annotateTasks rest g'

/-- `QuantumProvenanceGraphStatusAnnotator.__call__`.  The dataset-type
`key = …` / `xgraph.nodes[key]["status"] = …` lines sit at the
`if dataset_types:` indentation level, OUTSIDE the `for` loop over
`self.qpg_summary.datasets`: they run once, with `dataset_type_name` and
`dataset_type_status_info` still bound to the values of the final loop
iteration, embedded via `getLast?`.  With an empty `datasets` dict those
names are unbound and Python raises `NameError`. -/
def statusAnnotatorCall (summary : QPGSummary) (g : StatusGraph) (datasetTypes : Bool) :
    Except String StatusGraph :=
  match annotateTasks summary.tasks g with
  | .error e => .error e
  | .ok g' =>
    if datasetTypes then
      match summary.datasets.getLast? with
      | none => .error "NameError"
      | some (name, ds) =>
        setNodeStatus g' ⟨.datasetType, name⟩ (.datasetType (datasetTypeStatusInfoOf ds))
    else .ok g'

/-- Concrete input graph for the C10 witness: one task node and two
dataset-type nodes, no status attributes yet. -/
def statusWitnessGraph : StatusGraph :=
  ⟨[⟨.task, "t"⟩, ⟨.datasetType, "d1"⟩, ⟨.datasetType, "d2"⟩], fun _ => none⟩

/-- Concrete summary for the C10 witness: one task, two dataset types. -/
def statusWitnessSummary : QPGSummary :=
  ⟨[("t", ⟨3, 1, 1, 1, 0⟩)], [("d1", ⟨1, 1, 0⟩), ("d2", ⟨2, 1, 1⟩)]⟩

/-- The graph produced by the annotator on the C10 witness input. -/
def statusWitnessResult : StatusGraph :=
  ⟨[⟨.task, "t"⟩, ⟨.datasetType, "d1"⟩, ⟨.datasetType, "d2"⟩],
    fun k =>
      if k = ⟨.datasetType, "d2"⟩ then some (.datasetType ⟨2, 1 + 1⟩)
      else if k = ⟨.task, "t"⟩ then some (.task ⟨3, 1, 1, 1, none, none, some 0⟩)
      else none⟩

/-! ## Embedding of `visualization/_merge.py`: the merge engine

Exported `NodeKey`s are abstracted to `Nat` identifiers; a `MergedNodeKey`
is a `frozenset` of vertices, embedded as a canonically sorted,
deduplicated member list (so frozenset equality is definitional list
equality).  The `networkx.DiGraph` is embedded as insertion-ordered node
and edge lists (networkx stores nodes and per-node adjacency in insertion
order); Python `set`/`frozenset` iteration order is hash-dependent and
unspecified, so wherever the source iterates one, the embedding fixes a
deterministic order (canonical or first-insertion); none of the proved
properties depend on that choice.  Attribute values (dimensions, storage
class name, task class name) are abstracted to `Option Nat` (`none` both
for an absent attribute and an explicit `None` value). -/

/-- A display-graph vertex: an original exported node or a `MergedNodeKey`
(frozenset of vertices, kept canonically sorted and deduplicated). -/
inductive DNode where
  | base (n : Nat)
  | merged (members : List DNode)
deriving Repr

mutual
def DNode.decEq : (a b : DNode) → Decidable (a = b)
  | .base m, .base n =>
    match Nat.decEq m n with
    | isTrue h => isTrue (by rw [h])
    | isFalse h => isFalse (by intro he; cases he; exact h rfl)
  | .base _, .merged _ => isFalse (by intro h; cases h)
  | .merged _, .base _ => isFalse (by intro h; cases h)
  | .merged a, .merged b =>
    match DNode.decEqList a b with
    | isTrue h => isTrue (by rw [h])
    | isFalse h => isFalse (by intro he; cases he; exact h rfl)

def DNode.decEqList : (a b : List DNode) → Decidable (a = b)
  | [], [] => isTrue rfl
  | [], _ :: _ => isFalse (by intro h; cases h)
  | _ :: _, [] => isFalse (by intro h; cases h)
  | a :: as, b :: bs =>
    match DNode.decEq a b, DNode.decEqList as bs with
    | isTrue h1, isTrue h2 => isTrue (by rw [h1, h2])
    | isFalse h1, _ => isFalse (by intro he; cases he; exact h1 rfl)
    | _, isFalse h2 => isFalse (by intro he; cases he; exact h2 rfl)
end

instance : DecidableEq DNode := DNode.decEq

mutual
/-- Total order on vertices, used only to canonicalize frozensets. -/
def DNode.cmp : DNode → DNode → Ordering
  | .base m, .base n => compare m n
  | .base _, .merged _ => .lt
  | .merged _, .base _ => .gt
  | .merged a, .merged b => DNode.cmpList a b

def DNode.cmpList : List DNode → List DNode → Ordering
  | [], [] => .eq
  | [], _ :: _ => .lt
  | _ :: _, [] => .gt
  | a :: as, b :: bs => (DNode.cmp a b).then (DNode.cmpList as bs)
end

/-- Insert into a sorted, duplicate-free list (drops an equal element). -/
def insertDNode (a : DNode) : List DNode → List DNode
  | [] => [a]
  | b :: rest =>
    match DNode.cmp a b with
    | .lt => a :: b :: rest
    | .eq => b :: rest
    | .gt => b :: insertDNode a rest

/-- Canonical representation of a `frozenset` of vertices. -/
def dnodeSet (l : List DNode) : List DNode :=
  l.foldl (fun acc a => insertDNode a acc) []

/-- `MergedNodeKey(frozenset(members))`. -/
def mergedNodeKey (members : List DNode) : DNode :=
  .merged (dnodeSet members)

/-- The node attributes read and written by the merge engine
(`state["dimensions"]`, `state.get("storage_class_name")`,
`state.get("task_class_name")`). -/
structure VizNodeState where
  dimensions : Option Nat
  storageClassName : Option Nat
  taskClassName : Option Nat
deriving DecidableEq, Repr

/-- `NodeAttributeOptions`, reduced to the truthiness of its three fields,
which is all `_merge.py` inspects. -/
structure VizOptions where
  dimensions : Bool
  taskClasses : Bool
  storageClasses : Bool
deriving DecidableEq, Repr

/-- A `networkx.DiGraph`: insertion-ordered nodes (with attribute state)
and insertion-ordered, duplicate-free directed edges. -/
structure VizGraph where
  nodes : List (DNode × VizNodeState)
  edges : List (DNode × DNode)
deriving DecidableEq, Repr

def VizGraph.hasNode (g : VizGraph) (u : DNode) : Bool :=
  g.nodes.any (·.1 = u)

/-- `xgraph.successors(node)`: adjacency in edge-insertion order. -/
def VizGraph.successors (g : VizGraph) (u : DNode) : List DNode :=
  (g.edges.filter (fun e => e.1 = u)).map (·.2)

/-- `xgraph.predecessors(node)`. -/
def VizGraph.predecessors (g : VizGraph) (u : DNode) : List DNode :=
  (g.edges.filter (fun e => e.2 = u)).map (·.1)

def VizGraph.inEdges (g : VizGraph) (u : DNode) : List (DNode × DNode) :=
  g.edges.filter (fun e => e.2 = u)

def VizGraph.outEdges (g : VizGraph) (u : DNode) : List (DNode × DNode) :=
  g.edges.filter (fun e => e.1 = u)

def VizGraph.inDegree (g : VizGraph) (u : DNode) : Nat :=
  (g.inEdges u).length

/-- `xgraph.nodes[node]` attribute access (absent attributes are `none`). -/
def VizGraph.nodeState (g : VizGraph) (u : DNode) : VizNodeState :=
  match g.nodes.find? (fun p => p.1 = u) with
  | some p => p.2
  | none => ⟨none, none, none⟩

/-- `xgraph.add_node(u, …)`: updates attributes in place for an existing
node, appends a new node otherwise. -/
def VizGraph.addNode (g : VizGraph) (u : DNode) (st : VizNodeState) : VizGraph :=
  if g.hasNode u then
    { g with nodes := g.nodes.map (fun p => if p.1 = u then (u, st) else p) }
  else { g with nodes := g.nodes ++ [(u, st)] }

/-- `xgraph.add_edge(u, v)`: adds missing endpoints with empty attribute
dicts; a pre-existing edge is left in place. -/
def VizGraph.addEdge (g : VizGraph) (u v : DNode) : VizGraph :=
  let g := if g.hasNode u then g else { g with nodes := g.nodes ++ [(u, ⟨none, none, none⟩)] }
  let g := if g.hasNode v then g else { g with nodes := g.nodes ++ [(v, ⟨none, none, none⟩)] }
  if (u, v) ∈ g.edges then g else { g with edges := g.edges ++ [(u, v)] }

/-- `xgraph.remove_nodes_from(s)`: drops the nodes and all incident edges. -/
def VizGraph.removeNodesFrom (g : VizGraph) (s : List DNode) : VizGraph :=
  { nodes := g.nodes.filter (fun p => p.1 ∉ s),
    edges := g.edges.filter (fun e => e.1 ∉ s ∧ e.2 ∉ s) }

/-- `xgraph.reverse(copy=False)`: same nodes, flipped edges. -/
def VizGraph.reverse (g : VizGraph) : VizGraph :=
  { nodes := g.nodes, edges := g.edges.map (fun e => (e.2, e.1)) }

/-- `replacements.get(x, x)`. -/
def getReplacement (repl : List (DNode × DNode)) (a : DNode) : DNode :=
  match repl.find? (fun p => p.1 = a) with
  | some p => p.2
  | none => a

/-- `_MergeKey` as used by `merge_graph_intermediates`
(`_MergeKey[NodeKey, NodeKey]`): frozensets of parents and children plus
the compared attributes. -/
structure MergeKeyI where
  parents : List DNode
  dimensions : Option Nat
  storageClassName : Option Nat
  taskClassName : Option Nat
  children : List DNode
deriving DecidableEq, Repr

/-- `_MergeKey.from_node_state` for the intermediates pass. -/
def mergeKeyIFromNodeState (state : VizNodeState) (parents children : List DNode)
    (options : VizOptions) : MergeKeyI :=
  { parents := dnodeSet parents,
    dimensions := if options.dimensions then state.dimensions else none,
    storageClassName := if options.storageClasses then state.storageClassName else none,
    taskClassName := if options.taskClasses then state.taskClassName else none,
    children := dnodeSet children }

/-- `groups[merge_key].add(node)` on a `defaultdict(set)`: insertion-ordered
keys, members kept in first-add order. -/
def updateGroupI (groups : List (MergeKeyI × List DNode)) (k : MergeKeyI) (n : DNode) :
    List (MergeKeyI × List DNode) :=
  match groups with
  | [] => [(k, [n])]
  | (k', ms) :: rest =>
    if k' = k then (k', if n ∈ ms then ms else ms ++ [n]) :: rest
    else (k', ms) :: updateGroupI rest k n

/-- The per-group body of `merge_graph_intermediates`' second loop,
threading the mutated graph and the `replacements` dict. -/
def mergeIntermediatesGroupStep (acc : VizGraph × List (DNode × DNode))
    (kg : MergeKeyI × List DNode) : VizGraph × List (DNode × DNode) :=
  if kg.2.length < 2 then acc
  else
    let newKey := mergedNodeKey kg.2
    let g1 := acc.1.addNode newKey
      ⟨(kg.1).dimensions, (kg.1).storageClassName, (kg.1).taskClassName⟩
    let g2 := (kg.1).parents.foldl
      (fun g par => g.addEdge (getReplacement acc.2 par) newKey) g1
    let g3 := (kg.1).children.foldl
      (fun g ch => g.addEdge newKey (getReplacement acc.2 ch)) g2
    let repl := kg.2.foldl (fun r m => (m, newKey) :: r) acc.2
    (g3.removeNodesFrom kg.2, repl)

/-- `merge_graph_intermediates(xgraph, options)`: group the nodes that have
both parents and children by `(parents, attributes, children)`, then
collapse every group with at least two members into one `MergedNodeKey`. -/
def mergeGraphIntermediates (g : VizGraph) (options : VizOptions) : VizGraph :=
  let groups := g.nodes.foldl (fun groups p =>
    let mk := mergeKeyIFromNodeState p.2 (g.predecessors p.1) (g.successors p.1) options
    if mk.parents ≠ [] ∧ mk.children ≠ [] then updateGroupI groups mk p.1 else groups) []
  (groups.foldl mergeIntermediatesGroupStep (g, [])).1

/-- `_TreeGroupMergeKey` / `_TreeApplyMergeKey`: `_MergeKey` instantiated
recursively, with the children frozenset holding the merge keys of the
subtree below a candidate root (kept canonically sorted and deduplicated,
so frozenset equality is list equality). -/
inductive TreeMergeKey where
  | mk (parents : List DNode) (dimensions storageClassName taskClassName : Option Nat)
      (children : List TreeMergeKey)
deriving Repr

def TreeMergeKey.parents : TreeMergeKey → List DNode
  | .mk p _ _ _ _ => p

def TreeMergeKey.dimensions : TreeMergeKey → Option Nat
  | .mk _ d _ _ _ => d

def TreeMergeKey.storageClassName : TreeMergeKey → Option Nat
  | .mk _ _ s _ _ => s

def TreeMergeKey.taskClassName : TreeMergeKey → Option Nat
  | .mk _ _ _ t _ => t

def TreeMergeKey.children : TreeMergeKey → List TreeMergeKey
  | .mk _ _ _ _ c => c

mutual
def TreeMergeKey.decEq : (a b : TreeMergeKey) → Decidable (a = b)
  | .mk p1 d1 s1 t1 c1, .mk p2 d2 s2 t2 c2 =>
    match DNode.decEqList p1 p2, (inferInstance : DecidableEq (Option Nat)) d1 d2,
        (inferInstance : DecidableEq (Option Nat)) s1 s2,
        (inferInstance : DecidableEq (Option Nat)) t1 t2,
        TreeMergeKey.decEqList c1 c2 with
    | isTrue h1, isTrue h2, isTrue h3, isTrue h4, isTrue h5 =>
      isTrue (by rw [h1, h2, h3, h4, h5])
    | isFalse h1, _, _, _, _ => isFalse (by intro he; cases he; exact h1 rfl)
    | _, isFalse h2, _, _, _ => isFalse (by intro he; cases he; exact h2 rfl)
    | _, _, isFalse h3, _, _ => isFalse (by intro he; cases he; exact h3 rfl)
    | _, _, _, isFalse h4, _ => isFalse (by intro he; cases he; exact h4 rfl)
    | _, _, _, _, isFalse h5 => isFalse (by intro he; cases he; exact h5 rfl)

def TreeMergeKey.decEqList : (a b : List TreeMergeKey) → Decidable (a = b)
  | [], [] => isTrue rfl
  | [], _ :: _ => isFalse (by intro h; cases h)
  | _ :: _, [] => isFalse (by intro h; cases h)
  | a :: as, b :: bs =>
    match TreeMergeKey.decEq a b, TreeMergeKey.decEqList as bs with
    | isTrue h1, isTrue h2 => isTrue (by rw [h1, h2])
    | isFalse h1, _ => isFalse (by intro he; cases he; exact h1 rfl)
    | _, isFalse h2 => isFalse (by intro he; cases he; exact h2 rfl)
end

instance : DecidableEq TreeMergeKey := TreeMergeKey.decEq

/-- Encoding used to order optional attribute values. -/
def optNatCode : Option Nat → Nat
  | none => 0
  | some n => n + 1

mutual
/-- Total order on tree merge keys, used only to canonicalize the children
frozensets. -/
def TreeMergeKey.cmp : TreeMergeKey → TreeMergeKey → Ordering
  | .mk p1 d1 s1 t1 c1, .mk p2 d2 s2 t2 c2 =>
    (DNode.cmpList p1 p2).then
      ((compare (optNatCode d1) (optNatCode d2)).then
        ((compare (optNatCode s1) (optNatCode s2)).then
          ((compare (optNatCode t1) (optNatCode t2)).then
            (TreeMergeKey.cmpList c1 c2))))

def TreeMergeKey.cmpList : List TreeMergeKey → List TreeMergeKey → Ordering
  | [], [] => .eq
  | [], _ :: _ => .lt
  | _ :: _, [] => .gt
  | a :: as, b :: bs => (TreeMergeKey.cmp a b).then (TreeMergeKey.cmpList as bs)
end

def insertTreeKey (a : TreeMergeKey) : List TreeMergeKey → List TreeMergeKey
  | [] => [a]
  | b :: rest =>
    match TreeMergeKey.cmp a b with
    | .lt => a :: b :: rest
    | .eq => b :: rest
    | .gt => b :: insertTreeKey a rest

/-- Canonical representation of a frozenset of tree merge keys. -/
def treeKeySet (l : List TreeMergeKey) : List TreeMergeKey :=
  l.foldl (fun acc a => insertTreeKey a acc) []

/-- `_MergeKey.from_node_state` for the tree passes: `parents` is the
frozenset of graph successors of the candidate root, `children` the
frozenset of merge keys of the nodes below it. -/
def treeKeyFromNodeState (state : VizNodeState) (parents : List DNode)
    (children : List TreeMergeKey) (options : VizOptions) : TreeMergeKey :=
  .mk (dnodeSet parents)
    (if options.dimensions then state.dimensions else none)
    (if options.storageClasses then state.storageClassName else none)
    (if options.taskClasses then state.taskClassName else none)
    (treeKeySet children)

/-- `dataclasses.replace(merge_key, parents=frozenset())`. -/
def TreeMergeKey.clearParents : TreeMergeKey → TreeMergeKey
  | .mk _ d s t c => .mk [] d s t c

/-- One depth level of grouped candidate tree roots
(`dict[_TreeGroupMergeKey, set[NodeKey]]`, insertion-ordered). -/
abbrev TreeGroups := List (TreeMergeKey × List DNode)

/-- `result_for_depth[merge_key].add(node)`. -/
def updateTreeGroup (groups : TreeGroups) (k : TreeMergeKey) (n : DNode) : TreeGroups :=
  match groups with
  | [] => [(k, [n])]
  | (k', ms) :: rest =>
    if k' = k then (k', if n ∈ ms then ms else ms ++ [n]) :: rest
    else (k', ms) :: updateTreeGroup rest k n

/-- `new_group[key].update(members)` in `_apply_tree_merges`. -/
def updateTreeGroupMulti (groups : TreeGroups) (k : TreeMergeKey) (ns : List DNode) :
    TreeGroups :=
  match groups with
  | [] => [(k, ns)]
  | (k', ms) :: rest =>
    if k' = k then (k', ms ++ ns.filter (· ∉ ms)) :: rest
    else (k', ms) :: updateTreeGroupMulti rest k ns

/-- `current_candidates` / `next_candidates`: a dict from a possible tree
root to the dict of nodes directly below it with their merge keys. -/
abbrev TreeCandidates := List (DNode × List (DNode × TreeMergeKey))

/-- `next_candidates[parent][node] = key` on a `defaultdict(dict)`. -/
def updateCandidates (cands : TreeCandidates) (parent node : DNode) (k : TreeMergeKey) :
    TreeCandidates :=
  match cands with
  | [] => [(parent, [(node, k)])]
  | (p, inner) :: rest =>
    if p = parent then
      (p, if inner.any (fun q => q.1 = node)
        then inner.map (fun q => if q.1 = node then (node, k) else q)
        else inner ++ [(node, k)]) :: rest
    else (p, inner) :: updateCandidates rest parent node k

/-- One iteration of the `while current_candidates:` loop of
`_make_tree_merge_groups`: processes every candidate, producing the groups
for this depth, the next candidates and the set of roots discovered not to
be trees.  `resultLen` is `len(result)` during this iteration. -/
def treeLoopIteration (xg : VizGraph) (options : VizOptions) (depth resultLen : Nat)
    (cands : TreeCandidates) : TreeGroups × TreeCandidates × List DNode :=
  let step := cands.foldl (fun (acc : TreeGroups × TreeCandidates × List DNode) nc =>
    let mergeKey := treeKeyFromNodeState (xg.nodeState nc.1) (xg.successors nc.1)
      (nc.2.map (·.2)) options
    let forDepth := updateTreeGroup acc.1 mergeKey nc.1
    if resultLen ≤ depth then
      match mergeKey.parents with
      | [parent] =>
        (forDepth, updateCandidates acc.2.1 parent nc.1 mergeKey.clearParents, acc.2.2)
      | ps => (forDepth, acc.2.1, acc.2.2 ++ ps.filter (· ∉ acc.2.2))
    else (forDepth, acc.2.1, acc.2.2)) ([], [], [])
  (step.1, step.2.1.filter (fun p => p.1 ∉ step.2.2), step.2.2)

/-- The `while` loop of `_make_tree_merge_groups`, with explicit fuel (the
loop strictly ascends the finite graph, so `|nodes| + 1` iterations always
suffice; fuel exhaustion returns the result accumulated so far). -/
def treeLoop (xg : VizGraph) (options : VizOptions) (depth : Nat) :
    Nat → TreeCandidates → List TreeGroups → List TreeGroups
  | 0, _, result => result
  | _ + 1, [], result => result
  | fuel + 1, cands, result =>
    let it := treeLoopIteration xg options depth result.length cands
    treeLoop xg options depth fuel it.2.1 (result ++ [it.1])

/-- `_make_tree_merge_groups(xgraph, options, depth)`. -/
def makeTreeMergeGroups (xg : VizGraph) (options : VizOptions) (depth : Nat) :
    List TreeGroups :=
  if depth = 0 then [[]]
  else
    let firstGeneration := (xg.nodes.filter (fun p => xg.inDegree p.1 = 0)).map (·.1)
    treeLoop xg options depth (xg.nodes.length + 1)
      (firstGeneration.map (fun n => (n, []))) [[]]

/-- An edge set accumulated by `new_edges.update(...)`: duplicate-free,
first-insertion order. -/
def insertEdge (es : List (DNode × DNode)) (e : DNode × DNode) : List (DNode × DNode) :=
  if e ∈ es then es else es ++ [e]

/-- The body of `_apply_tree_merges` for one group of one depth level,
threading the graph and the `replacements` dict. -/
def applyTreeGroupStep (acc : VizGraph × List (DNode × DNode))
    (kg : TreeMergeKey × List DNode) : VizGraph × List (DNode × DNode) :=
  if kg.2.length < 2 then acc
  else
    let newKey := mergedNodeKey kg.2
    let st := kg.2.foldl (fun (st : List (DNode × DNode) × List (DNode × DNode)) m =>
      let repl := (m, newKey) :: st.1
      let es := (acc.1.inEdges m).foldl (fun es e =>
        insertEdge es (getReplacement repl e.1, getReplacement repl e.2)) st.2
      let es := (acc.1.outEdges m).foldl (fun es e =>
        insertEdge es (getReplacement repl e.1, getReplacement repl e.2)) es
      (repl, es)) (acc.2, [])
    let g1 := acc.1.addNode newKey
      ⟨kg.1.dimensions, kg.1.storageClassName, kg.1.taskClassName⟩
    let g2 := st.2.foldl (fun g e => g.addEdge e.1 e.2) g1
    (g2, st.1)

/-- One depth level of `_apply_tree_merges`: regroup by parents replaced
with their eventual merged identities, then collapse every group with at
least two members. -/
def applyTreeDepthStep (acc : VizGraph × List (DNode × DNode)) (group : TreeGroups) :
    VizGraph × List (DNode × DNode) :=
  let newGroup := group.foldl (fun ng (kg : TreeMergeKey × List DNode) =>
    if kg.1.parents.any (fun p => (acc.2.find? (fun q => q.1 = p)).isSome) then
      updateTreeGroupMulti ng
        (.mk (dnodeSet (kg.1.parents.map (getReplacement acc.2))) kg.1.dimensions
          kg.1.storageClassName kg.1.taskClassName kg.1.children) kg.2
    else updateTreeGroupMulti ng kg.1 kg.2) []
  newGroup.foldl applyTreeGroupStep acc

/-- `_apply_tree_merges(xgraph, groups)`. -/
def applyTreeMerges (g : VizGraph) (groups : List TreeGroups) : VizGraph :=
  let final := groups.reverse.foldl applyTreeDepthStep (g, [])
  final.1.removeNodesFrom (final.2.map (·.1))

/-- `merge_graph_input_trees(xgraph, options, depth)`. -/
def mergeGraphInputTrees (g : VizGraph) (options : VizOptions) (depth : Nat) : VizGraph :=
  applyTreeMerges g (makeTreeMergeGroups g options depth)

/-- `merge_graph_output_trees(xgraph, options, depth)`: groups are computed
on the reversed view, applied to the graph itself. -/
def mergeGraphOutputTrees (g : VizGraph) (options : VizOptions) (depth : Nat) : VizGraph :=
  applyTreeMerges g (makeTreeMergeGroups g.reverse options depth)

/-- The C6 scenario graph: two shared parents (0, 1), three intermediate
nodes (2, 3, 4) with identical attributes, identical parent sets and the
same single child (5). -/
def intermediatesScenarioGraph : VizGraph :=
  { nodes := [(.base 0, ⟨some 10, none, none⟩), (.base 1, ⟨some 10, none, none⟩),
              (.base 2, ⟨some 1, some 2, none⟩), (.base 3, ⟨some 1, some 2, none⟩),
              (.base 4, ⟨some 1, some 2, none⟩), (.base 5, ⟨some 20, none, none⟩)],
    edges := [(.base 0, .base 2), (.base 0, .base 3), (.base 0, .base 4),
              (.base 1, .base 2), (.base 1, .base 3), (.base 1, .base 4),
              (.base 2, .base 5), (.base 3, .base 5), (.base 4, .base 5)] }

/-- The merge engine: the three passes of `_merge.py` applied with the same
options and depth, in the order the spec lists the modes (intermediate
merge, then input-tree merge, then output-tree merge).  The driver that
sequences the passes lives in `_show.py`, outside these sources. -/
def mergePasses (g : VizGraph) (options : VizOptions) (depth : Nat) : VizGraph :=
  mergeGraphOutputTrees
    (mergeGraphInputTrees (mergeGraphIntermediates g options) options depth) options depth

/-- The merge engine with the tree passes sequenced before the intermediate
merge (the other natural driver order). -/
def mergePassesTreesFirst (g : VizGraph) (options : VizOptions) (depth : Nat) : VizGraph :=
  mergeGraphIntermediates
    (mergeGraphOutputTrees (mergeGraphInputTrees g options depth) options depth) options

/-- Counterexample graph for the idempotence claim: seven nodes with
identical compared attributes and edges
`0→2, 1→4, 1→6, 2→4, 2→5, 2→6, 3→5`.  The output-tree pass merges the
sinks 4 and 6 (same predecessors `{1,2}`); only after that merge does the
leaf 3's tree under the sink 5 become isomorphic to the structure under the
merged sink, so a second application of the passes collapses `{5, {4,6}}`
and then `{1, 3}`. -/
def mergeCexGraph : VizGraph :=
  { nodes := [(.base 0, ⟨some 1, none, none⟩), (.base 1, ⟨some 1, none, none⟩),
              (.base 2, ⟨some 1, none, none⟩), (.base 3, ⟨some 1, none, none⟩),
              (.base 4, ⟨some 1, none, none⟩), (.base 5, ⟨some 1, none, none⟩),
              (.base 6, ⟨some 1, none, none⟩)],
    edges := [(.base 0, .base 2), (.base 1, .base 4), (.base 1, .base 6),
              (.base 2, .base 4), (.base 2, .base 5), (.base 2, .base 6),
              (.base 3, .base 5)] }

/-! ## Embedding of `visualization/_layout.py`: the layout engine

Nodes of the laid-out graph are abstracted to `Nat` identifiers.  The
`networkx` helpers the class calls (`weakly_connected_components`,
`dag_longest_path`, `ancestors`, `subgraph`) are external collaborators,
embedded by their documented behaviour; where their iteration order is
unspecified (Python `set` iteration, dict-order tie-breaking in
`dag_longest_path`) the embedding fixes a deterministic choice — the
properties proved below hold for every choice.  The two `assert`
statements of the class are embedded as `Option` failures. -/

/-- The directed graph handed to `Layout`: insertion-ordered nodes and
duplicate-free edges. -/
structure LGraph where
  nodes : List Nat
  edges : List (Nat × Nat)
deriving DecidableEq, Repr

def LGraph.successors (g : LGraph) (u : Nat) : List Nat :=
  (g.edges.filter (fun e => e.1 = u)).map (·.2)

def LGraph.predecessors (g : LGraph) (u : Nat) : List Nat :=
  (g.edges.filter (fun e => e.2 = u)).map (·.1)

def LGraph.inDegree (g : LGraph) (u : Nat) : Nat :=
  (g.edges.filter (fun e => e.2 = u)).length

def LGraph.outDegree (g : LGraph) (u : Nat) : Nat :=
  (g.edges.filter (fun e => e.1 = u)).length

def LGraph.hasNode (g : LGraph) (u : Nat) : Bool :=
  u ∈ g.nodes

/-- `todo_graph.remove_node(u)`. -/
def LGraph.removeNode (g : LGraph) (u : Nat) : LGraph :=
  { nodes := g.nodes.filter (fun n => n ≠ u),
    edges := g.edges.filter (fun e => e.1 ≠ u ∧ e.2 ≠ u) }

/-- `graph.subgraph(s)`: induced subgraph, original orderings retained. -/
def LGraph.subgraph (g : LGraph) (s : List Nat) : LGraph :=
  { nodes := g.nodes.filter (fun n => n ∈ s),
    edges := g.edges.filter (fun e => e.1 ∈ s ∧ e.2 ∈ s) }

/-- One closure step for reachability computations: add the immediate
sources of every frontier node. -/
def predClosureStep (g : LGraph) (acc : List Nat) : List Nat :=
  acc ++ ((acc.flatMap g.predecessors).filter (fun n => n ∉ acc)).eraseDups

def iterateSteps {α : Type} (f : α → α) : Nat → α → α
  | 0, a => a
  | n + 1, a => iterateSteps f n (f a)

/-- `networkx.algorithms.dag.ancestors(g, node)`: all nodes with a path to
`node` (computed as a bounded predecessor-closure; `node` itself excluded). -/
def ancestorsOf (g : LGraph) (node : Nat) : List Nat :=
  (iterateSteps (predClosureStep g) g.nodes.length [node]).filter (fun n => n ≠ node)

/-- One closure step over undirected adjacency. -/
def undirectedClosureStep (g : LGraph) (acc : List Nat) : List Nat :=
  acc ++ ((acc.flatMap (fun u => g.successors u ++ g.predecessors u)).filter
    (fun n => n ∉ acc)).eraseDups

/-- The weakly connected component containing `start`. -/
def componentOf (g : LGraph) (start : Nat) : List Nat :=
  iterateSteps (undirectedClosureStep g) g.nodes.length [start]

/-- `networkx.algorithms.components.weakly_connected_components(g)`, in
order of each component's first node. -/
def weaklyConnectedComponents (g : LGraph) : List (List Nat) :=
  (g.nodes.foldl (fun (acc : List (List Nat) × List Nat) u =>
    if u ∈ acc.2 then acc
    else (acc.1 ++ [componentOf g u], acc.2 ++ componentOf g u)) ([], [])).1

/-- A topological order (Kahn): repeatedly take the first remaining node
with no remaining predecessor.  On a cyclic remainder the loop stops. -/
def topoOrder : Nat → LGraph → List Nat
  | 0, _ => []
  | fuel + 1, g =>
    match g.nodes.find? (fun n => g.inDegree n = 0) with
    | none => []
    | some n => n :: topoOrder fuel (g.removeNode n)

/-- `networkx.algorithms.dag.dag_longest_path(g)`: longest-path dynamic
programming over a topological order; ties broken by the first maximum
encountered (networkx breaks them by dict order, which is unspecified
here; the layout properties hold for any longest path, indeed for any
path). -/
def dagLongestPath (g : LGraph) : List Nat :=
  let order := topoOrder (g.nodes.length + 1) g
  let dist : List (Nat × Nat × Nat) := order.foldl (fun dist v =>
    let best := (g.predecessors v).foldl (fun (best : Option (Nat × Nat)) u =>
      match (dist.find? (fun d => d.1 = u)).map (·.2.1) with
      | none => best
      | some du =>
        match best with
        | none => some (du + 1, u)
        | some b => if du + 1 > b.1 then some (du + 1, u) else best) none
    match best with
    | none => dist ++ [(v, 0, v)]
    | some b => dist ++ [(v, b.1, b.2)]) []
  let last := dist.foldl (fun (best : Option (Nat × Nat × Nat)) d =>
    match best with
    | none => some d
    | some b => if d.2.1 > b.2.1 then some d else best) none
  match last with
  | none => []
  | some d => buildPath dist d.2.1 d.1 []
where
  buildPath (dist : List (Nat × Nat × Nat)) : Nat → Nat → List Nat → List Nat
    | 0, v, acc => v :: acc
    | fuel + 1, v, acc =>
      match dist.find? (fun d => d.1 = v) with
      | none => v :: acc
      | some d => if d.2.2 = v then v :: acc else buildPath dist fuel d.2.2 (v :: acc)

/-- The mutable state of `Layout.__init__`: the remaining graph
(`_todo_graph`), the live columns (`_active_columns`, column ↦ outstanding
destination set), the placements (`_locations`, insertion-ordered) and
`x_max`. -/
structure LayoutState where
  todo : LGraph
  activeColumns : List (Nat × List Nat)
  locations : List (Nat × Nat)
  xMax : Nat
deriving DecidableEq, Repr

/-- The scan of `for node_x in itertools.count(): if node_x not in
self._active_columns: break`, with enough fuel to always find a free
column (there are at most `keys.length` occupied ones). -/
def leastFreeFrom (keys : List Nat) : Nat → Nat → Nat
  | 0, x => x
  | fuel + 1, x => if x ∈ keys then leastFreeFrom keys fuel (x + 1) else x

/-- The smallest column index not currently active. -/
def leastFreeColumn (keys : List Nat) : Nat :=
  leastFreeFrom keys (keys.length + 1) 0

/-- `Layout._add_unblocked_node`: the only operation that places a node.
The leading `assert` (the node must be present and unblocked) is embedded
as the `Option` guard.  Returns the new state and the assigned column. -/
def LayoutState.addUnblockedNode (st : LayoutState) (node : Nat) :
    Option (LayoutState × Nat) :=
  if st.todo.hasNode node ∧ st.todo.inDegree node = 0 then
    let active := st.activeColumns.filterMap (fun p =>
      if node ∈ p.2 then
        (let rest := p.2.filter (fun n => n ≠ node)
        if rest = [] then none else some (p.1, rest))
      else some p)
    let nodeX := leastFreeColumn (active.map (·.1))
    let outgoing := st.todo.successors node
    some ({ todo := st.todo.removeNode node,
            activeColumns := if outgoing = [] then active else active ++ [(nodeX, outgoing)],
            locations := st.locations ++ [(node, nodeX)],
            xMax := max nodeX st.xMax }, nodeX)
  else none

/-- Stable descending insertion used for
`sorted(unblocked, key=out_degree, reverse=True)`. -/
def insertByKeyDesc (key : Nat → Nat) (a : Nat) : List Nat → List Nat
  | [] => [a]
  | b :: rest => if key a < key b then b :: insertByKeyDesc key a rest else a :: b :: rest

def sortByKeyDesc (key : Nat → Nat) (l : List Nat) : List Nat :=
  l.foldr (insertByKeyDesc key) []

/-- `Layout._add_active_unblocked(avoid)`: repeatedly place every
unblocked endpoint of an active column other than `avoid` — immediately if
it has no outgoing edges, otherwise in order of decreasing out-degree —
until none is left.  `fuel` bounds the `while True` loop. -/
def LayoutState.addActiveUnblocked : Nat → LayoutState → Nat → Option LayoutState
  | 0, _, _ => none
  | fuel + 1, st, avoid =>
    let snapshot := (st.activeColumns.flatMap (·.2)).eraseDups
    let phase := snapshot.foldl (fun (acc : Option (LayoutState × List Nat)) node =>
      match acc with
      | none => none
      | some (st, unblocked) =>
        if node ≠ avoid ∧ st.todo.hasNode node ∧ st.todo.inDegree node = 0 then
          if st.todo.outDegree node = 0 then
            match st.addUnblockedNode node with
            | none => none
            | some (st', _) => some (st', unblocked)
          else some (st, if node ∈ unblocked then unblocked else unblocked ++ [node])
        else some (st, unblocked)) (some (st, []))
    match phase with
    | none => none
    | some (st', unblocked) =>
      if unblocked = [] then some st'
      else
        match (sortByKeyDesc (st'.todo.outDegree) unblocked).foldl
            (fun (acc : Option LayoutState) node =>
              match acc with
              | none => none
              | some st => (st.addUnblockedNode node).map (·.1)) (some st') with
        | none => none
        | some st'' => LayoutState.addActiveUnblocked fuel st'' avoid

/-- The body of `Layout._add_connected_graph`: walk the longest path,
freeing unblocked actives before each node, recursing into the sub-DAG of
remaining ancestors when there is one (`recurse` is the recursive call at
one less fuel). -/
def walkLongestPath (recurse : LayoutState → LGraph → Option LayoutState) :
    LayoutState → List Nat → Option LayoutState
  | st, [] => some st
  | st, node :: rest =>
    match LayoutState.addActiveUnblocked (st.todo.nodes.length + 1) st node with
    | none => none
    | some st1 =>
      if st1.todo.hasNode node then
        let ancestors := ancestorsOf st1.todo node
        if ancestors = [] then
          match st1.addUnblockedNode node with
          | none => none
          | some (st2, _) => walkLongestPath recurse st2 rest
        else
          match recurse st1 (st1.todo.subgraph (ancestors ++ [node])) with
          | none => none
          | some st2 => walkLongestPath recurse st2 rest
      else none

/-- `Layout._add_connected_graph`, with fuel bounding the
ancestor-subgraph recursion. -/
def addConnectedGraph : Nat → LayoutState → LGraph → Option LayoutState
  | 0, _, _ => none
  | fuel + 1, st, xg => walkLongestPath (addConnectedGraph fuel) st (dagLongestPath xg)

/-- `Layout.__init__`: process each weakly connected component of the
input graph, then check (`assert not self._todo_graph`) that everything
was placed.  Returns the placements and `x_max`. -/
def layout (g : LGraph) : Option (List (Nat × Nat) × Nat) :=
  match (weaklyConnectedComponents g).foldl
      (fun (acc : Option LayoutState) comp =>
        match acc with
        | none => none
        | some st => addConnectedGraph (g.nodes.length + 1) st (g.subgraph comp))
      (some ⟨g, [], [], 0⟩) with
  | none => none
  | some st => if st.todo.nodes = [] then some (st.locations, st.xMax) else none

/-- `LayoutRow`: node, column, terminating edges (origin column, origin)
and continuing edges (origin column, origin, outstanding destinations). -/
structure LayoutRowE where
  node : Nat
  x : Nat
  terminating : List (Nat × Nat)
  continuing : List (Nat × Nat × List Nat)
deriving DecidableEq, Repr

def lookupLoc (locations : List (Nat × Nat)) (u : Nat) : Nat :=
  match locations.find? (fun p => p.1 = u) with
  | some p => p.2
  | none => 0

def insertRowPair (a : Nat × Nat) : List (Nat × Nat) → List (Nat × Nat)
  | [] => [a]
  | b :: rest =>
    if a.1 < b.1 ∨ (a.1 = b.1 ∧ a.2 ≤ b.2) then a :: b :: rest
    else b :: insertRowPair a rest

/-- `row.terminating.sort()` (lexicographic on the leading pair; networkx
would compare further components only on full ties, which cannot happen
since origins are unique per row). -/
def sortRowPairs (l : List (Nat × Nat)) : List (Nat × Nat) :=
  l.foldr insertRowPair []

def insertRowTriple (a : Nat × Nat × List Nat) :
    List (Nat × Nat × List Nat) → List (Nat × Nat × List Nat)
  | [] => [a]
  | b :: rest =>
    if a.1 < b.1 ∨ (a.1 = b.1 ∧ a.2.1 ≤ b.2.1) then a :: b :: rest
    else b :: insertRowTriple a rest

def sortRowTriples (l : List (Nat × Nat × List Nat)) : List (Nat × Nat × List Nat) :=
  l.foldr insertRowTriple []

/-- `Layout.__iter__`: one `LayoutRow` per placement, in placement order,
threading the `active_edges` dict (origin ↦ outstanding destinations). -/
def layoutRows (g : LGraph) (locations : List (Nat × Nat)) (xMax : Nat) : List LayoutRowE :=
  (locations.foldl (fun (acc : List LayoutRowE × List (Nat × List Nat)) loc =>
    let rowData := acc.2.foldl
      (fun (row : List (Nat × Nat) × List (Nat × Nat × List Nat) × List (Nat × List Nat)) oe =>
        let terminating := if loc.1 ∈ oe.2
          then row.1 ++ [(xMax - lookupLoc locations oe.1, oe.1)] else row.1
        let dests := oe.2.filter (fun n => n ≠ loc.1)
        let continuing := if dests.isEmpty then row.2.1
          else row.2.1 ++ [(xMax - lookupLoc locations oe.1, oe.1, dests)]
        (terminating, continuing, row.2.2 ++ [(oe.1, dests)])) ([], [], [])
    (acc.1 ++ [⟨loc.1, xMax - loc.2, sortRowPairs rowData.1, sortRowTriples rowData.2.1⟩],
      rowData.2.2 ++ [(loc.1, g.successors loc.1)])) ([], [])).1

/-- The list of placed nodes, in placement order. -/
def placedKeys (locations : List (Nat × Nat)) : List Nat :=
  locations.map (·.1)

/-- The successors of `u` not yet placed (the outstanding destination set
of `u`'s column). -/
def succUnplaced (g : LGraph) (placed : List Nat) (u : Nat) : List Nat :=
  (g.edges.filter (fun e => e.1 = u ∧ e.2 ∉ placed)).map (·.2)

/-- `u` is live after the first `k` placements: it has been placed and
still has an edge to an unplaced node. -/
def liveAt (g : LGraph) (locations : List (Nat × Nat)) (k : Nat) (u : Nat) : Prop :=
  u ∈ placedKeys (locations.take k) ∧
    ∃ v, (u, v) ∈ g.edges ∧ v ∉ placedKeys (locations.take k)

/-- At no point during placement do two distinct simultaneously live nodes
share a column. -/
def columnsOk (g : LGraph) (locations : List (Nat × Nat)) : Prop :=
  ∀ k u v, liveAt g locations k u → liveAt g locations k v → u ≠ v →
    lookupLoc locations u ≠ lookupLoc locations v

/-- The invariant maintained by every `Layout` operation: placements are
unique graph nodes, `_todo_graph` is the induced graph on the unplaced
nodes, placement order is topological, `_active_columns` holds exactly the
columns of placed nodes with outstanding successors, and no two
simultaneously live nodes ever share a column. -/
structure LayoutInv (g : LGraph) (st : LayoutState) : Prop where
  nodupKeys : (placedKeys st.locations).Nodup
  keysSub : ∀ u ∈ placedKeys st.locations, u ∈ g.nodes
  todoNodes : st.todo.nodes = g.nodes.filter (fun n => n ∉ placedKeys st.locations)
  todoEdges : st.todo.edges = g.edges.filter
    (fun e => e.1 ∉ placedKeys st.locations ∧ e.2 ∉ placedKeys st.locations)
  topo : ∀ e ∈ g.edges, e.2 ∈ placedKeys st.locations →
    e.1 ∈ placedKeys st.locations ∧
      List.indexOf e.1 (placedKeys st.locations) < List.indexOf e.2 (placedKeys st.locations)
  activeSound : ∀ p ∈ st.activeColumns, ∃ u, u ∈ placedKeys st.locations ∧
    p.1 = lookupLoc st.locations u ∧
    p.2 = succUnplaced g (placedKeys st.locations) u ∧ p.2 ≠ []
  activeComplete : ∀ u ∈ placedKeys st.locations,
    succUnplaced g (placedKeys st.locations) u ≠ [] →
    (lookupLoc st.locations u, succUnplaced g (placedKeys st.locations) u) ∈ st.activeColumns
  colsOk : columnsOk g st.locations

/-! ### Definitions for the idempotence analysis of `merge_graph_intermediates`
(claim C5, amended) -/

/-- `True` exactly on `NodeKey` vertices (every vertex of an exported
pipeline graph; `MergedNodeKey` vertices only appear as merge results). -/
def DNode.isBase : DNode → Bool
  | .base _ => true
  | .merged _ => false

/-- Well-formedness of a display graph handed to the merge engine: distinct
vertices, edges between existing vertices, no self-loops (pipeline graphs
are acyclic) and no pre-existing `MergedNodeKey` vertices. -/
structure VizWf (g : VizGraph) : Prop where
  nodupKeys : (g.nodes.map (fun p => p.1)).Nodup
  edgeFst : ∀ e ∈ g.edges, e.1 ∈ g.nodes.map (fun p => p.1)
  edgeSnd : ∀ e ∈ g.edges, e.2 ∈ g.nodes.map (fun p => p.1)
  noSelfLoop : ∀ e ∈ g.edges, e.1 ≠ e.2
  allBase : ∀ p ∈ g.nodes, (p.1).isBase = true

/-- The `_MergeKey` computed for one node entry by
`merge_graph_intermediates`. -/
def nodeKeyOf (g : VizGraph) (options : VizOptions) (p : DNode × VizNodeState) :
    MergeKeyI :=
  mergeKeyIFromNodeState p.2 (g.predecessors p.1) (g.successors p.1) options

/-- The grouping pass of `merge_graph_intermediates` (its first loop). -/
def intermediateGroups (g : VizGraph) (options : VizOptions) :
    List (MergeKeyI × List DNode) :=
  g.nodes.foldl (fun groups p =>
    let mk := nodeKeyOf g options p
    if mk.parents ≠ [] ∧ mk.children ≠ [] then updateGroupI groups mk p.1 else groups) []

/-- Membership in a group that will actually be collapsed (two or more
members). -/
def isBigMember (groups : List (MergeKeyI × List DNode)) (w : DNode) : Prop :=
  ∃ kg ∈ groups, 2 ≤ kg.2.length ∧ w ∈ kg.2

/-- The total replacement map determined by a run's merge groups. -/
def replOfGroups (groups : List (MergeKeyI × List DNode)) (w : DNode) : DNode :=
  match groups.find? (fun kg => decide (2 ≤ kg.2.length) && decide (w ∈ kg.2)) with
  | some kg => mergedNodeKey kg.2
  | none => w

/-- What the grouping pass guarantees about its result: distinct keys, and
every group holds distinct nodes of the graph that all carry that merge
key; conversely every node with a nontrivial merge key is in its group. -/
structure GroupsWf (g : VizGraph) (options : VizOptions)
    (groups : List (MergeKeyI × List DNode)) : Prop where
  keysNodup : (groups.map (fun kg => kg.1)).Nodup
  membersNodup : ∀ kg ∈ groups, (kg.2).Nodup
  memberEntry : ∀ kg ∈ groups, ∀ m ∈ kg.2,
    ∃ p ∈ g.nodes, p.1 = m ∧ nodeKeyOf g options p = kg.1
  keyNontrivial : ∀ kg ∈ groups, (kg.1).parents ≠ [] ∧ (kg.1).children ≠ []
  complete : ∀ p ∈ g.nodes, (nodeKeyOf g options p).parents ≠ [] →
    (nodeKeyOf g options p).children ≠ [] →
    ∃ kg ∈ groups, kg.1 = nodeKeyOf g options p ∧ p.1 ∈ kg.2

/-- The invariant of `merge_graph_intermediates`' second loop after the
groups in `P` have been processed: `replacements` realizes the replacement
map of `P`, the node entries are the unmerged originals plus one merged
entry per collapsed group, and the edge set is the image of the original
edge set under the replacement map. -/
structure StepInv (g : VizGraph) (P : List (MergeKeyI × List DNode))
    (st : VizGraph × List (DNode × DNode)) : Prop where
  replSpec : ∀ w, getReplacement st.2 w = replOfGroups P w
  entriesMem : ∀ p, p ∈ (st.1).nodes ↔
    (p ∈ g.nodes ∧ ¬isBigMember P p.1) ∨
    ∃ kg ∈ P, 2 ≤ kg.2.length ∧
      p = (mergedNodeKey kg.2,
        ⟨(kg.1).dimensions, (kg.1).storageClassName, (kg.1).taskClassName⟩)
  edgesMem : ∀ a b, (a, b) ∈ (st.1).edges ↔
    ∃ e ∈ g.edges, replOfGroups P e.1 = a ∧ replOfGroups P e.2 = b
  nodupKeys : ((st.1).nodes.map (fun p => p.1)).Nodup

/-! ## Theorems about `QuantumGraph.traverse` (claims C1 and C3) -/

/-- **C2.** For every dataset-type vertex with more than one incident
write-edge, a fresh resolution (`previous is None`; note that the
memoization step of `_from_edges` only ever sees a `previous` produced by a
successful earlier resolution of the same edges) fails with
`DuplicateOutputError`, whose message names both producing tasks — the
second edge's label and the recorded producer — and no `DatasetTypeNode`
is returned for that vertex. -/
theorem claim_C2_duplicate_output_error (keyName : String)
    (registryDatasetType : Option DatasetTypeDef) (w1 w2 : WriteEdge)
    (rest : List WriteEdge) (readEdges : List ReadEdge) :
    DatasetTypeNodeFromEdges keyName registryDatasetType (w1 :: w2 :: rest) readEdges none =
      .error (.duplicateOutput keyName w2.taskLabel w1.taskLabel) := rfl

theorem resolveWriteEdges_ok_flags (e : WriteEdge) (rest : List WriteEdge)
    (dt : Option DatasetTypeDef) (iqc : Bool) (ip : Option Bool) (keyName : String)
    (out : Option DatasetTypeDef × Bool × Option Bool × Option String)
    (h : resolveWriteEdges (e :: rest) dt iqc ip none keyName = .ok out) :
    out.2.1 = false ∧ out.2.2.1 = some false := by
  cases rest with
  | nil =>
    simp only [resolveWriteEdges, Except.ok.injEq] at h
    subst h; exact ⟨rfl, rfl⟩
  | cons e' rest' =>
    simp only [resolveWriteEdges] at h
    exact absurd h (by simp)

theorem resolveReadEdges_preserves_flags :
    ∀ (edges : List ReadEdge) (dt : Option DatasetTypeDef)
      (out : Option DatasetTypeDef × Bool × Option Bool),
      resolveReadEdges edges dt false (some false) = .ok out →
      out.2.1 = false ∧ out.2.2 = some false := by
  intro edges
  induction edges with
  | nil =>
    intro dt out h
    simp only [resolveReadEdges, Except.ok.injEq] at h
    subst h; exact ⟨rfl, rfl⟩
  | cons e rest ih =>
    intro dt out h
    cases hb : e.isPrerequisiteConn with
    | false =>
      simp only [resolveReadEdges, ReadEdge.resolveDatasetType, hb] at h
      simp only [if_pos rfl, Bool.false_and] at h
      exact ih _ _ h
    | true =>
      simp only [resolveReadEdges, ReadEdge.resolveDatasetType, hb] at h
      simp at h

/-- **C4.** For every resolved `DatasetTypeNode` (fresh resolution,
`previous is None`): if the dataset-type vertex has at least one incident
write-edge, the returned node has `is_prerequisite = False` and
`is_initial_query_constraint = False`; hence `is_prerequisite` can be
`True` only when no write-edge exists for that name. -/
theorem claim_C4_write_edge_forces_not_prerequisite (keyName : String)
    (registryDatasetType : Option DatasetTypeDef) (writeEdges : List WriteEdge)
    (readEdges : List ReadEdge) (node : DatasetTypeNode)
    (hw : writeEdges ≠ [])
    (h : DatasetTypeNodeFromEdges keyName registryDatasetType writeEdges readEdges none =
      .ok node) :
    node.isPrerequisite = false ∧ node.isInitialQueryConstraint = false := by
  match writeEdges, hw with
  | e :: rest, _ =>
    simp only [DatasetTypeNodeFromEdges,
      DatasetTypeNodeFromEdges.resolveFreshDatasetTypeNode] at h
    cases hw' : resolveWriteEdges (e :: rest) registryDatasetType true none none keyName with
    | error err => rw [hw'] at h; exact absurd h (by simp)
    | ok out =>
      obtain ⟨hiqc, hip⟩ := resolveWriteEdges_ok_flags e rest _ _ _ _ _ hw'
      obtain ⟨dt, iqc, ip, prod⟩ := out
      simp only at hiqc hip
      subst hiqc; subst hip
      rw [hw'] at h
      simp only at h
      cases hr : resolveReadEdges
          (readEdges.filter (fun e => e.component = none) ++
            readEdges.filter (fun e => e.component ≠ none)) dt false (some false) with
      | error err => rw [hr] at h; exact absurd h (by simp)
      | ok out' =>
        obtain ⟨hiqc', hip'⟩ := resolveReadEdges_preserves_flags _ _ _ hr
        obtain ⟨dt', iqc', ip'⟩ := out'
        simp only at hiqc' hip'
        subst hiqc'; subst hip'
        rw [hr] at h
        cases dt' with
        | none => exact absurd h (by simp)
        | some d =>
          simp only [Except.ok.injEq] at h
          subst h
          exact ⟨rfl, rfl⟩

/-- Witness for C4: a vertex with a single write-edge and no read edges
resolves to a node with both flags `false`. -/
theorem claim_C4_witness :
    ([⟨"producer", 7⟩] : List WriteEdge) ≠ [] ∧
    (⟨7, false, false⟩ : DatasetTypeNode).isPrerequisite = false ∧
    (⟨7, false, false⟩ : DatasetTypeNode).isInitialQueryConstraint = false :=
  ⟨by decide,
    claim_C4_write_edge_forces_not_prerequisite "d" none [⟨"producer", 7⟩] []
      ⟨7, false, false⟩ (by decide) rfl⟩

/-! ## Theorems about the status annotator (claim C10) -/

theorem setNodeStatus_ok {g : StatusGraph} {key : NodeKey} {v : StatusInfo}
    {g' : StatusGraph} (h : setNodeStatus g key v = .ok g') :
    g'.status = fun k => if k = key then some v else g.status k := by
  unfold setNodeStatus at h
  split at h
  · cases h; rfl
  · exact absurd h (by simp)

theorem annotateTasks_spec :
    ∀ (l : List (String × TaskSummary)) (g g' : StatusGraph),
      annotateTasks l g = .ok g' →
      (∀ k : NodeKey, k.nodeType ≠ .task → g'.status k = g.status k) ∧
      (∀ k : NodeKey, g'.status k = g.status k ∨
        ∃ ts, g'.status k = some (.task (taskStatusInfoOf ts))) ∧
      (∀ p ∈ l, ∃ ts, g'.status ⟨.task, p.1⟩ = some (.task (taskStatusInfoOf ts))) := by
  intro l
  induction l with
  | nil =>
    intro g g' h
    simp only [annotateTasks, Except.ok.injEq] at h
    subst h
    exact ⟨fun _ _ => rfl, fun _ => Or.inl rfl, by simp⟩
  | cons p rest ih =>
    intro g g' h
    obtain ⟨label, ts⟩ := p
    simp only [annotateTasks] at h
    cases hset : setNodeStatus g ⟨.task, label⟩ (.task (taskStatusInfoOf ts)) with
    | error e => rw [hset] at h; exact absurd h (by simp)
    | ok g1 =>
      rw [hset] at h
      simp only at h
      obtain ⟨ih1, ih2, ih3⟩ := ih g1 g' h
      have hst := setNodeStatus_ok hset
      refine ⟨?_, ?_, ?_⟩
      · intro k hk
        rw [ih1 k hk, hst]
        have : ¬(k = ⟨.task, label⟩) := by
          intro he; subst he; exact hk rfl
        simp [this]
      · intro k
        rcases ih2 k with hk | hk
        · rw [hk, hst]
          by_cases he : k = (⟨.task, label⟩ : NodeKey)
          · subst he; exact Or.inr ⟨ts, by simp⟩
          · exact Or.inl (by simp [he])
        · exact Or.inr hk
      · intro q hq
        rcases List.mem_cons.mp hq with hq | hq
        · subst hq
          rcases ih2 ⟨.task, label⟩ with hk | hk
          · rw [hk, hst]; exact ⟨ts, by simp⟩
          · exact hk
        · exact ih3 q hq

/-- **C10.** When `QuantumProvenanceGraphStatusAnnotator.__call__` runs
with `dataset_types=True` on a summary with at least one dataset type (and
succeeds), it sets the `"status"` attribute of every task node named in the
summary, but among the dataset-type nodes only the node of the dataset type
iterated last receives a status; every other dataset-type node's status
attribute is left exactly as it was in the input graph. -/
theorem claim_C10_status_annotator_last_dataset_only
    (summary : QPGSummary) (g g' : StatusGraph)
    (lastName : String) (lastDs : DatasetTypeSummary)
    (hlast : summary.datasets.getLast? = some (lastName, lastDs))
    (h : statusAnnotatorCall summary g true = .ok g') :
    (∀ p ∈ summary.tasks,
      ∃ ts, g'.status ⟨.task, p.1⟩ = some (.task (taskStatusInfoOf ts))) ∧
    g'.status ⟨.datasetType, lastName⟩ =
      some (.datasetType (datasetTypeStatusInfoOf lastDs)) ∧
    (∀ p ∈ summary.datasets, p.1 ≠ lastName →
      g'.status ⟨.datasetType, p.1⟩ = g.status ⟨.datasetType, p.1⟩) := by
  unfold statusAnnotatorCall at h
  cases htasks : annotateTasks summary.tasks g with
  | error e => rw [htasks] at h; exact absurd h (by simp)
  | ok g1 =>
    rw [htasks] at h
    simp only [if_pos rfl, hlast] at h
    obtain ⟨a1, a2, a3⟩ := annotateTasks_spec summary.tasks g g1 htasks
    have hst := setNodeStatus_ok h
    refine ⟨?_, ?_, ?_⟩
    · intro p hp
      obtain ⟨ts, hts⟩ := a3 p hp
      refine ⟨ts, ?_⟩
      rw [hst]
      have : ¬((⟨.task, p.1⟩ : NodeKey) = ⟨.datasetType, lastName⟩) := by
        intro he; cases he
      simp only [if_neg this]
      exact hts
    · rw [hst]; simp
    · intro p hp hne
      rw [hst]
      have : ¬((⟨.datasetType, p.1⟩ : NodeKey) = ⟨.datasetType, lastName⟩) := by
        intro he
        cases he
        exact hne rfl
      simp only [if_neg this]
      exact a1 ⟨.datasetType, p.1⟩ (by simp)

/-- Witness for C10: a summary with one task and two dataset types on a
graph containing all three nodes; only `d2` (iterated last) receives a
dataset-type status, `d1` stays unannotated. -/
theorem claim_C10_witness :
    (∀ p ∈ statusWitnessSummary.tasks,
      ∃ ts, statusWitnessResult.status ⟨.task, p.1⟩ =
        some (.task (taskStatusInfoOf ts))) ∧
    statusWitnessResult.status ⟨.datasetType, "d2"⟩ =
      some (.datasetType (datasetTypeStatusInfoOf ⟨2, 1, 1⟩)) ∧
    (∀ p ∈ statusWitnessSummary.datasets, p.1 ≠ "d2" →
      statusWitnessResult.status ⟨.datasetType, p.1⟩ =
        statusWitnessGraph.status ⟨.datasetType, p.1⟩) :=
  claim_C10_status_annotator_last_dataset_only statusWitnessSummary
    statusWitnessGraph statusWitnessResult "d2" ⟨2, 1, 1⟩ rfl rfl

/-! ## Theorems about the merge engine (claims C5, C6 and C9) -/

/-! ### The canonical frozenset representation

`DNode.cmp` is a linear order and `dnodeSet` computes the unique strictly
sorted duplicate-free list with the same members, so list equality of
canonicalized member lists is frozenset equality. -/

mutual
theorem DNode.cmp_eq_iff : ∀ (a b : DNode), DNode.cmp a b = .eq ↔ a = b
  | .base m, .base n => by
    simp only [DNode.cmp, DNode.base.injEq]
    exact Nat.compare_eq_eq
  | .base _, .merged _ => by simp [DNode.cmp]
  | .merged _, .base _ => by simp [DNode.cmp]
  | .merged a, .merged b => by
    simp only [DNode.cmp, DNode.merged.injEq]
    exact DNode.cmpList_eq_iff a b

theorem DNode.cmpList_eq_iff : ∀ (a b : List DNode), DNode.cmpList a b = .eq ↔ a = b
  | [], [] => by simp [DNode.cmpList]
  | [], _ :: _ => by simp [DNode.cmpList]
  | _ :: _, [] => by simp [DNode.cmpList]
  | x :: xs, y :: ys => by
    simp only [DNode.cmpList, List.cons.injEq]
    cases hxy : DNode.cmp x y with
    | eq =>
      simp only [Ordering.then]
      rw [DNode.cmpList_eq_iff xs ys]
      have := (DNode.cmp_eq_iff x y).mp hxy
      simp [this]
    | lt =>
      simp only [Ordering.then]
      have : ¬x = y := fun h => by
        rw [(DNode.cmp_eq_iff x y).mpr h] at hxy
        cases hxy
      simp [this]
    | gt =>
      simp only [Ordering.then]
      have : ¬x = y := fun h => by
        rw [(DNode.cmp_eq_iff x y).mpr h] at hxy
        cases hxy
      simp [this]
end

theorem DNode.cmp_self (a : DNode) : DNode.cmp a a = .eq :=
  (DNode.cmp_eq_iff a a).mpr rfl

mutual
theorem DNode.cmp_swap : ∀ (a b : DNode), DNode.cmp a b = (DNode.cmp b a).swap
  | .base m, .base n => by
    simp only [DNode.cmp]
    rcases Nat.lt_trichotomy m n with h | h | h
    · rw [Nat.compare_eq_lt.mpr h, Nat.compare_eq_gt.mpr h]; rfl
    · subst h; rw [Nat.compare_eq_eq.mpr rfl]; rfl
    · rw [Nat.compare_eq_gt.mpr h, Nat.compare_eq_lt.mpr h]; rfl
  | .base _, .merged _ => by simp [DNode.cmp]; rfl
  | .merged _, .base _ => by simp [DNode.cmp]; rfl
  | .merged a, .merged b => by
    simp only [DNode.cmp]
    exact DNode.cmpList_swap a b

theorem DNode.cmpList_swap : ∀ (a b : List DNode), DNode.cmpList a b = (DNode.cmpList b a).swap
  | [], [] => by simp [DNode.cmpList]; rfl
  | [], _ :: _ => by simp [DNode.cmpList]; rfl
  | _ :: _, [] => by simp [DNode.cmpList]; rfl
  | x :: xs, y :: ys => by
    simp only [DNode.cmpList]
    rw [DNode.cmp_swap x y, DNode.cmpList_swap xs ys]
    cases DNode.cmp y x <;> cases DNode.cmpList ys xs <;> rfl
end

theorem DNode.cmp_gt_iff_lt (a b : DNode) : DNode.cmp a b = .gt ↔ DNode.cmp b a = .lt := by
  rw [DNode.cmp_swap a b]
  cases DNode.cmp b a <;> simp [Ordering.swap]

mutual
theorem DNode.cmp_trans_lt :
    ∀ (a b c : DNode), DNode.cmp a b = .lt → DNode.cmp b c = .lt → DNode.cmp a c = .lt
  | .base ma, .base mb, .base mc => fun h1 h2 => by
    simp only [DNode.cmp, Nat.compare_eq_lt] at *
    omega
  | .base _, .base _, .merged _ => fun _ _ => by simp [DNode.cmp]
  | .base _, .merged _, .base _ => fun _ h2 => by simp [DNode.cmp] at h2
  | .base _, .merged _, .merged _ => fun _ _ => by simp [DNode.cmp]
  | .merged _, .base _, _ => fun h1 _ => by simp [DNode.cmp] at h1
  | .merged _, .merged _, .base _ => fun _ h2 => by simp [DNode.cmp] at h2
  | .merged a, .merged b, .merged c => fun h1 h2 => by
    simp only [DNode.cmp] at *
    exact DNode.cmpList_trans_lt a b c h1 h2

theorem DNode.cmpList_trans_lt :
    ∀ (a b c : List DNode),
      DNode.cmpList a b = .lt → DNode.cmpList b c = .lt → DNode.cmpList a c = .lt
  | [], [], _ => fun h1 _ => by simp [DNode.cmpList] at h1
  | [], _ :: _, [] => fun _ h2 => by simp [DNode.cmpList] at h2
  | [], _ :: _, _ :: _ => fun _ _ => by simp [DNode.cmpList]
  | _ :: _, [], _ => fun h1 _ => by simp [DNode.cmpList] at h1
  | _ :: _, _ :: _, [] => fun _ h2 => by simp [DNode.cmpList] at h2
  | x :: xs, y :: ys, z :: zs => fun h1 h2 => by
    simp only [DNode.cmpList] at h1 h2 ⊢
    cases hxy : DNode.cmp x y with
    | gt => rw [hxy] at h1; cases h1
    | lt =>
      cases hyz : DNode.cmp y z with
      | gt => rw [hyz] at h2; cases h2
      | lt => rw [DNode.cmp_trans_lt x y z hxy hyz]; rfl
      | eq =>
        have hy := (DNode.cmp_eq_iff y z).mp hyz
        rw [← hy, hxy]; rfl
    | eq =>
      have hx := (DNode.cmp_eq_iff x y).mp hxy
      subst hx
      rw [hxy] at h1
      simp only [Ordering.then] at h1
      cases hxz : DNode.cmp x z with
      | gt => rw [hxz] at h2; cases h2
      | lt => rfl
      | eq =>
        rw [hxz] at h2
        simp only [Ordering.then] at h2 ⊢
        exact DNode.cmpList_trans_lt _ _ _ h1 h2
end

theorem DNode.cmp_lt_irrefl (a : DNode) : ¬DNode.cmp a a = .lt := by
  rw [DNode.cmp_self]; intro h; cases h

theorem DNode.cmp_lt_asymm {a b : DNode} (h : DNode.cmp a b = .lt) :
    ¬DNode.cmp b a = .lt := by
  intro h'
  exact DNode.cmp_lt_irrefl a (DNode.cmp_trans_lt a b a h h')

theorem mem_insertDNode {x a : DNode} :
    ∀ {l : List DNode}, x ∈ insertDNode a l ↔ x = a ∨ x ∈ l
  | [] => by simp [insertDNode]
  | b :: rest => by
    simp only [insertDNode]
    cases hab : DNode.cmp a b with
    | lt => simp [List.mem_cons]
    | eq =>
      have hab' := (DNode.cmp_eq_iff a b).mp hab
      subst hab'
      simp only [List.mem_cons]
      constructor
      · exact Or.inr
      · rintro (h | h)
        · exact Or.inl h
        · exact h
    | gt =>
      simp only [List.mem_cons, mem_insertDNode (l := rest)]
      tauto

theorem pairwise_insertDNode {a : DNode} :
    ∀ {l : List DNode}, l.Pairwise (fun u v => DNode.cmp u v = .lt) →
      (insertDNode a l).Pairwise (fun u v => DNode.cmp u v = .lt)
  | [], _ => by simp [insertDNode]
  | b :: rest, h => by
    simp only [insertDNode]
    rcases List.pairwise_cons.mp h with ⟨hb, hrest⟩
    cases hab : DNode.cmp a b with
    | lt =>
      refine List.pairwise_cons.mpr ⟨?_, h⟩
      intro x hx
      rcases List.mem_cons.mp hx with h1 | h1
      · rw [h1]; exact hab
      · exact DNode.cmp_trans_lt a b x hab (hb x h1)
    | eq => exact h
    | gt =>
      refine List.pairwise_cons.mpr ⟨?_, pairwise_insertDNode hrest⟩
      intro x hx
      rcases mem_insertDNode.mp hx with h1 | h1
      · rw [h1]; exact (DNode.cmp_gt_iff_lt a b).mp hab
      · exact hb x h1

theorem mem_foldl_insertDNode (x : DNode) :
    ∀ (l acc : List DNode),
      (x ∈ l.foldl (fun acc a => insertDNode a acc) acc ↔ x ∈ acc ∨ x ∈ l)
  | [], _ => by simp
  | a :: rest, acc => by
    simp only [List.foldl_cons, mem_foldl_insertDNode x rest, mem_insertDNode,
      List.mem_cons]
    tauto

theorem pairwise_foldl_insertDNode :
    ∀ (l acc : List DNode), acc.Pairwise (fun u v => DNode.cmp u v = .lt) →
      (l.foldl (fun acc a => insertDNode a acc) acc).Pairwise
        (fun u v => DNode.cmp u v = .lt)
  | [], _, h => h
  | _ :: rest, _, h =>
    pairwise_foldl_insertDNode rest _ (pairwise_insertDNode h)

theorem mem_dnodeSet {x : DNode} {l : List DNode} : x ∈ dnodeSet l ↔ x ∈ l := by
  simp [dnodeSet, mem_foldl_insertDNode]

theorem pairwise_dnodeSet (l : List DNode) :
    (dnodeSet l).Pairwise (fun u v => DNode.cmp u v = .lt) :=
  pairwise_foldl_insertDNode l [] (List.Pairwise.nil)

theorem sorted_dnode_unique :
    ∀ {l1 l2 : List DNode}, l1.Pairwise (fun u v => DNode.cmp u v = .lt) →
      l2.Pairwise (fun u v => DNode.cmp u v = .lt) → (∀ x, x ∈ l1 ↔ x ∈ l2) → l1 = l2
  | [], [], _, _, _ => rfl
  | [], y :: _, _, _, hm => absurd ((hm y).mpr (List.mem_cons_self _ _)) (List.not_mem_nil y)
  | x :: _, [], _, _, hm => absurd ((hm x).mp (List.mem_cons_self _ _)) (List.not_mem_nil x)
  | x :: xs, y :: ys, h1, h2, hm => by
    rcases List.pairwise_cons.mp h1 with ⟨hx, hxs⟩
    rcases List.pairwise_cons.mp h2 with ⟨hy, hys⟩
    have hxy : x = y := by
      rcases List.mem_cons.mp ((hm x).mp (List.mem_cons_self _ _)) with h | h
      · exact h
      · exfalso
        have hyx : DNode.cmp y x = .lt := hy x h
        rcases List.mem_cons.mp ((hm y).mpr (List.mem_cons_self _ _)) with h' | h'
        · rw [h'] at hyx; exact DNode.cmp_lt_irrefl x hyx
        · exact DNode.cmp_lt_asymm hyx (hx y h')
    subst hxy
    have hms : ∀ z, z ∈ xs ↔ z ∈ ys := by
      intro z
      constructor
      · intro hz
        rcases List.mem_cons.mp ((hm z).mp (List.mem_cons_of_mem _ hz)) with h | h
        · exfalso; rw [h] at hz; exact DNode.cmp_lt_irrefl x (hx x hz)
        · exact h
      · intro hz
        rcases List.mem_cons.mp ((hm z).mpr (List.mem_cons_of_mem _ hz)) with h | h
        · exfalso; rw [h] at hz; exact DNode.cmp_lt_irrefl x (hy x hz)
        · exact h
    rw [sorted_dnode_unique hxs hys hms]

theorem dnodeSet_ext {l1 l2 : List DNode} (h : ∀ x, x ∈ l1 ↔ x ∈ l2) :
    dnodeSet l1 = dnodeSet l2 :=
  sorted_dnode_unique (pairwise_dnodeSet l1) (pairwise_dnodeSet l2)
    (fun x => by rw [mem_dnodeSet, mem_dnodeSet]; exact h x)

theorem dnodeSet_inj {l1 l2 : List DNode} :
    dnodeSet l1 = dnodeSet l2 ↔ (∀ x, x ∈ l1 ↔ x ∈ l2) := by
  constructor
  · intro h x
    rw [← mem_dnodeSet (l := l1), ← mem_dnodeSet (l := l2), h]
  · exact dnodeSet_ext

/-- **C6.** On the scenario graph — three intermediate nodes `2, 3, 4` with
identical compared attributes, the identical parent set `{0, 1}` and the
same single child `5` — `merge_graph_intermediates` collapses the three
into one `MergedNodeKey` containing exactly the three original keys,
leaves exactly one edge from each shared parent to the merged node and
exactly one edge from the merged node to the child, and removes the three
original nodes. -/
theorem claim_C6_intermediates_merge_scenario :
    mergeGraphIntermediates intermediatesScenarioGraph ⟨true, true, true⟩ =
      { nodes := [(.base 0, ⟨some 10, none, none⟩), (.base 1, ⟨some 10, none, none⟩),
                  (.base 5, ⟨some 20, none, none⟩),
                  (.merged [.base 2, .base 3, .base 4], ⟨some 1, some 2, none⟩)],
        edges := [(.base 0, .merged [.base 2, .base 3, .base 4]),
                  (.base 1, .merged [.base 2, .base 3, .base 4]),
                  (.merged [.base 2, .base 3, .base 4], .base 5)] } := by
  decide

theorem removeNodesFrom_nil (g : VizGraph) : g.removeNodesFrom [] = g := by
  cases g with
  | mk nodes edges =>
    simp only [VizGraph.removeNodesFrom, VizGraph.mk.injEq]
    constructor
    · exact List.filter_eq_self.mpr (fun a _ => by simp)
    · exact List.filter_eq_self.mpr (fun a _ => by simp)

/-- **C9.** Calling `merge_graph_input_trees` or `merge_graph_output_trees`
with `depth = 0` leaves the graph completely unchanged — no nodes are
added, removed or merged and no edge changes — for every input graph and
every options value (`_make_tree_merge_groups` returns the `[{}]`
placeholder immediately and `_apply_tree_merges` then has nothing to do). -/
theorem claim_C9_tree_merge_depth_zero_identity (g : VizGraph) (options : VizOptions) :
    mergeGraphInputTrees g options 0 = g ∧ mergeGraphOutputTrees g options 0 = g :=
  ⟨removeNodesFrom_nil g, removeNodesFrom_nil g⟩

set_option maxHeartbeats 4000000 in
/-- Counterexample to **C5**: on `mergeCexGraph` (all compared attributes
equal, depth 2) the first application of the merge passes yields a
six-node graph, and a second application collapses it further to four
nodes — under either sequencing of the passes — so the first output is not
a fixed point. -/
theorem claim_C5_counterexample_second_application_collapses :
    (mergePasses (mergePasses mergeCexGraph ⟨true, false, false⟩ 2)
        ⟨true, false, false⟩ 2 ≠
      mergePasses mergeCexGraph ⟨true, false, false⟩ 2) ∧
    (mergePasses (mergePasses mergeCexGraph ⟨true, false, false⟩ 2)
        ⟨true, false, false⟩ 2).nodes.length <
      (mergePasses mergeCexGraph ⟨true, false, false⟩ 2).nodes.length ∧
    (mergePassesTreesFirst (mergePassesTreesFirst mergeCexGraph ⟨true, false, false⟩ 2)
        ⟨true, false, false⟩ 2 ≠
      mergePassesTreesFirst mergeCexGraph ⟨true, false, false⟩ 2) := by
  decide

/-! ### Idempotence of `merge_graph_intermediates` (claim C5, amended) -/

theorem mem_predecessors {g : VizGraph} {w u : DNode} :
    w ∈ g.predecessors u ↔ (w, u) ∈ g.edges := by
  simp only [VizGraph.predecessors, List.mem_map, List.mem_filter, decide_eq_true_eq]
  constructor
  · rintro ⟨e, ⟨he, hu⟩, hw⟩
    rw [← hw, ← hu]
    exact he
  · intro h
    exact ⟨(w, u), ⟨h, rfl⟩, rfl⟩

theorem mem_successors {g : VizGraph} {w u : DNode} :
    w ∈ g.successors u ↔ (u, w) ∈ g.edges := by
  simp only [VizGraph.successors, List.mem_map, List.mem_filter, decide_eq_true_eq]
  constructor
  · rintro ⟨e, ⟨he, hu⟩, hw⟩
    rw [← hw, ← hu]
    exact he
  · intro h
    exact ⟨(u, w), ⟨h, rfl⟩, rfl⟩

theorem hasNode_iff {g : VizGraph} {u : DNode} :
    g.hasNode u = true ↔ u ∈ g.nodes.map (fun p => p.1) := by
  simp only [VizGraph.hasNode, List.any_eq_true, List.mem_map, decide_eq_true_eq]

theorem addNode_fresh {g : VizGraph} {u : DNode} {st : VizNodeState}
    (h : ¬u ∈ g.nodes.map (fun p => p.1)) :
    g.addNode u st = { nodes := g.nodes ++ [(u, st)], edges := g.edges } := by
  have hh : g.hasNode u = false := by
    cases hhn : g.hasNode u
    · rfl
    · exact absurd (hasNode_iff.mp hhn) h
  simp only [VizGraph.addNode, hh]
  rfl

theorem addEdge_present {g : VizGraph} {u v : DNode}
    (hu : u ∈ g.nodes.map (fun p => p.1)) (hv : v ∈ g.nodes.map (fun p => p.1)) :
    (g.addEdge u v).nodes = g.nodes ∧
      ∀ a b, ((a, b) ∈ (g.addEdge u v).edges ↔ (a, b) ∈ g.edges ∨ (a = u ∧ b = v)) := by
  simp only [VizGraph.addEdge, hasNode_iff.mpr hu, if_true, hasNode_iff.mpr hv]
  by_cases hmem : (u, v) ∈ g.edges
  · rw [if_pos hmem]
    refine ⟨rfl, fun a b => ?_⟩
    constructor
    · exact Or.inl
    · rintro (h | ⟨h1, h2⟩)
      · exact h
      · rw [h1, h2]; exact hmem
  · rw [if_neg hmem]
    refine ⟨rfl, fun a b => ?_⟩
    simp only [List.mem_append, List.mem_singleton, Prod.mk.injEq]

theorem foldl_addEdge_spec (e : DNode → DNode × DNode) :
    ∀ (L : List DNode) (g : VizGraph),
      (∀ p ∈ L, (e p).1 ∈ g.nodes.map (fun q => q.1) ∧ (e p).2 ∈ g.nodes.map (fun q => q.1)) →
      (L.foldl (fun g p => g.addEdge (e p).1 (e p).2) g).nodes = g.nodes ∧
        ∀ a b, ((a, b) ∈ (L.foldl (fun g p => g.addEdge (e p).1 (e p).2) g).edges ↔
          (a, b) ∈ g.edges ∨ ∃ p ∈ L, a = (e p).1 ∧ b = (e p).2)
  | [], g, _ => ⟨rfl, by simp⟩
  | p :: rest, g, hpres => by
    have hp := hpres p (List.mem_cons_self _ _)
    have hstep := addEdge_present (g := g) hp.1 hp.2
    have hpres' : ∀ q ∈ rest, (e q).1 ∈ (g.addEdge (e p).1 (e p).2).nodes.map (fun r => r.1) ∧
        (e q).2 ∈ (g.addEdge (e p).1 (e p).2).nodes.map (fun r => r.1) := by
      intro q hq
      rw [hstep.1]
      exact hpres q (List.mem_cons_of_mem _ hq)
    have ih := foldl_addEdge_spec e rest (g.addEdge (e p).1 (e p).2) hpres'
    refine ⟨by rw [List.foldl_cons, ih.1, hstep.1], fun a b => ?_⟩
    rw [List.foldl_cons, ih.2 a b]
    rw [hstep.2 a b]
    constructor
    · rintro ((h | h) | ⟨q, hq, h⟩)
      · exact Or.inl h
      · exact Or.inr ⟨p, List.mem_cons_self _ _, h.1, h.2⟩
      · exact Or.inr ⟨q, List.mem_cons_of_mem _ hq, h⟩
    · rintro (h | ⟨q, hq, h⟩)
      · exact Or.inl (Or.inl h)
      · rcases List.mem_cons.mp hq with h' | h'
        · subst h'; exact Or.inl (Or.inr h)
        · exact Or.inr ⟨q, h', h⟩

theorem getReplacement_cons {m c w : DNode} {r : List (DNode × DNode)} :
    getReplacement ((m, c) :: r) w = if w = m then c else getReplacement r w := by
  simp only [getReplacement, List.find?_cons]
  by_cases h : m = w
  · subst h
    rw [if_pos rfl]
    simp
  · have : ¬w = m := fun h' => h h'.symm
    rw [if_neg this]
    have hd : (decide ((m, c).1 = w)) = false := by
      simp only [decide_eq_false_iff_not]
      exact h
    rw [hd]

theorem foldl_consRepl_spec (c w : DNode) :
    ∀ (ms : List DNode) (r : List (DNode × DNode)),
      getReplacement (ms.foldl (fun r m => (m, c) :: r) r) w =
        if w ∈ ms then c else getReplacement r w
  | [], r => by simp
  | m :: rest, r => by
    rw [List.foldl_cons, foldl_consRepl_spec c w rest ((m, c) :: r)]
    by_cases hw : w ∈ rest
    · rw [if_pos hw, if_pos (List.mem_cons_of_mem _ hw)]
    · rw [if_neg hw, getReplacement_cons]
      by_cases hm : w = m
      · rw [if_pos hm, if_pos (List.mem_cons.mpr (Or.inl hm))]
      · rw [if_neg hm, if_neg (fun h => by
          rcases List.mem_cons.mp h with h' | h'
          · exact hm h'
          · exact hw h')]

theorem assoc_nodup_eq {α β : Type} {l : List (α × β)}
    (hn : (l.map (fun p => p.1)).Nodup) :
    ∀ {p q : α × β}, p ∈ l → q ∈ l → p.1 = q.1 → p = q := by
  induction l with
  | nil => intro p q hp _ _; cases hp
  | cons x rest ih =>
    intro p q hp hq h
    rw [List.map_cons] at hn
    rcases List.nodup_cons.mp hn with ⟨hx, hrest⟩
    rcases List.mem_cons.mp hp with hp' | hp' <;> rcases List.mem_cons.mp hq with hq' | hq'
    · rw [hp', hq']
    · exfalso
      apply hx
      rw [← hp', h]
      exact List.mem_map.mpr ⟨q, hq', rfl⟩
    · exfalso
      apply hx
      rw [← hq', ← h]
      exact List.mem_map.mpr ⟨p, hp', rfl⟩
    · exact ih hrest hp' hq' h

theorem two_mem_of_two_le {α : Type} :
    ∀ {l : List α}, 2 ≤ l.length → l.Nodup → ∃ x y, x ∈ l ∧ y ∈ l ∧ x ≠ y
  | [], h, _ => by cases h
  | [_], h, _ => by simp at h
  | x :: y :: _, _, hn => by
    refine ⟨x, y, List.mem_cons_self _ _, List.mem_cons_of_mem _ (List.mem_cons_self _ _), ?_⟩
    intro h
    rcases List.nodup_cons.mp hn with ⟨hx, _⟩
    exact hx (h ▸ List.mem_cons_self _ _)

theorem two_le_of_two_mem {α : Type} :
    ∀ {l : List α} {x y : α}, x ∈ l → y ∈ l → x ≠ y → 2 ≤ l.length
  | [], _, _, hx, _, _ => by cases hx
  | [a], x, y, hx, hy, hxy => by
    rw [List.mem_singleton] at hx hy
    exact absurd (hx.trans hy.symm) hxy
  | _ :: _ :: _, _, _, _, _, _ => by simp only [List.length_cons]; omega

theorem updateGroupI_keys (k : MergeKeyI) (n : DNode) :
    ∀ groups, (updateGroupI groups k n).map (fun kg => kg.1) =
      if k ∈ groups.map (fun kg => kg.1) then groups.map (fun kg => kg.1)
      else groups.map (fun kg => kg.1) ++ [k]
  | [] => by simp [updateGroupI]
  | (k', ms) :: rest => by
    simp only [updateGroupI]
    by_cases hk : k' = k
    · subst hk
      rw [if_pos rfl]
      simp
    · rw [if_neg hk, List.map_cons, List.map_cons, updateGroupI_keys k n rest]
      have hne : ¬(k ∈ (k', ms).1 :: rest.map (fun kg => kg.1)) ↔
          ¬(k ∈ rest.map (fun kg => kg.1)) := by
        simp only [List.mem_cons]
        constructor
        · intro h h'; exact h (Or.inr h')
        · intro h h'
          rcases h' with h' | h'
          · exact hk h'.symm
          · exact h h'
      by_cases hmem : k ∈ rest.map (fun kg => kg.1)
      · rw [if_pos hmem, if_pos (List.mem_cons_of_mem _ hmem)]
      · rw [if_neg hmem, if_neg (fun h => (hne.mpr hmem) h)]
        simp

theorem updateGroupI_mem (k : MergeKeyI) (n : DNode) :
    ∀ groups, ∀ kg' ∈ updateGroupI groups k n,
      kg' ∈ groups ∨ (kg'.1 = k ∧ (kg'.2 = [n] ∨
        ∃ ms, (k, ms) ∈ groups ∧ ¬n ∈ ms ∧ kg'.2 = ms ++ [n]))
  | [], kg', h => by
    simp only [updateGroupI, List.mem_singleton] at h
    subst h
    exact Or.inr ⟨rfl, Or.inl rfl⟩
  | (k', ms) :: rest, kg', h => by
    simp only [updateGroupI] at h
    by_cases hk : k' = k
    · subst hk
      rw [if_pos rfl] at h
      rcases List.mem_cons.mp h with h' | h'
      · by_cases hn : n ∈ ms
        · rw [if_pos hn] at h'
          exact Or.inl (h' ▸ List.mem_cons_self _ _)
        · rw [if_neg hn] at h'
          subst h'
          exact Or.inr ⟨rfl, Or.inr ⟨ms, List.mem_cons_self _ _, hn, rfl⟩⟩
      · exact Or.inl (List.mem_cons_of_mem _ h')
    · rw [if_neg hk] at h
      rcases List.mem_cons.mp h with h' | h'
      · exact Or.inl (h' ▸ List.mem_cons_self _ _)
      · rcases updateGroupI_mem k n rest kg' h' with h'' | ⟨h1, h2⟩
        · exact Or.inl (List.mem_cons_of_mem _ h'')
        · refine Or.inr ⟨h1, ?_⟩
          rcases h2 with h2 | ⟨ms', hms', hn, he⟩
          · exact Or.inl h2
          · exact Or.inr ⟨ms', List.mem_cons_of_mem _ hms', hn, he⟩

theorem updateGroupI_adds (k : MergeKeyI) (n : DNode) :
    ∀ groups, ∃ kg' ∈ updateGroupI groups k n, kg'.1 = k ∧ n ∈ kg'.2
  | [] => ⟨(k, [n]), by simp [updateGroupI]⟩
  | (k', ms) :: rest => by
    simp only [updateGroupI]
    by_cases hk : k' = k
    · subst hk
      rw [if_pos rfl]
      by_cases hn : n ∈ ms
      · rw [if_pos hn]
        exact ⟨(k', ms), List.mem_cons_self _ _, rfl, hn⟩
      · rw [if_neg hn]
        exact ⟨(k', ms ++ [n]), List.mem_cons_self _ _, rfl,
          List.mem_append.mpr (Or.inr (List.mem_singleton.mpr rfl))⟩
    · rw [if_neg hk]
      rcases updateGroupI_adds k n rest with ⟨kg', hmem, hk', hn⟩
      exact ⟨kg', List.mem_cons_of_mem _ hmem, hk', hn⟩

theorem updateGroupI_preserves (k : MergeKeyI) (n : DNode) :
    ∀ groups, ∀ kg ∈ groups, ∃ kg' ∈ updateGroupI groups k n,
      kg'.1 = kg.1 ∧ ∀ m ∈ kg.2, m ∈ kg'.2
  | [], kg, h => by cases h
  | (k', ms) :: rest, kg, h => by
    simp only [updateGroupI]
    by_cases hk : k' = k
    · subst hk
      rw [if_pos rfl]
      rcases List.mem_cons.mp h with h' | h'
      · subst h'
        refine ⟨(k', if n ∈ ms then ms else ms ++ [n]), List.mem_cons_self _ _, rfl, ?_⟩
        intro m hm
        by_cases hn : n ∈ ms
        · rw [if_pos hn]; exact hm
        · rw [if_neg hn]; exact List.mem_append.mpr (Or.inl hm)
      · exact ⟨kg, List.mem_cons_of_mem _ h', rfl, fun m hm => hm⟩
    · rw [if_neg hk]
      rcases List.mem_cons.mp h with h' | h'
      · refine ⟨(k', ms), List.mem_cons_self _ _, ?_, ?_⟩
        · rw [h']
        · intro m hm; rw [h'] at hm; exact hm
      · rcases updateGroupI_preserves k n rest kg h' with ⟨kg', hmem, hk', hsub⟩
        exact ⟨kg', List.mem_cons_of_mem _ hmem, hk', hsub⟩

theorem groupsFold_wf (g : VizGraph) (o : VizOptions) :
    ∀ (l : List (DNode × VizNodeState)) (acc : List (MergeKeyI × List DNode)),
      (∀ p ∈ l, p ∈ g.nodes) →
      (acc.map (fun kg => kg.1)).Nodup →
      (∀ kg ∈ acc, (kg.2).Nodup) →
      (∀ kg ∈ acc, ∀ m ∈ kg.2, ∃ p ∈ g.nodes, p.1 = m ∧ nodeKeyOf g o p = kg.1) →
      (∀ kg ∈ acc, (kg.1).parents ≠ [] ∧ (kg.1).children ≠ []) →
      (∀ p ∈ g.nodes, (nodeKeyOf g o p).parents ≠ [] →
        (nodeKeyOf g o p).children ≠ [] →
        (∃ kg ∈ acc, kg.1 = nodeKeyOf g o p ∧ p.1 ∈ kg.2) ∨ p ∈ l) →
      GroupsWf g o (l.foldl (fun groups p =>
        if (nodeKeyOf g o p).parents ≠ [] ∧ (nodeKeyOf g o p).children ≠ [] then
          updateGroupI groups (nodeKeyOf g o p) p.1
        else groups) acc)
  | [], _, _, h1, h2, h3, h4, h5 => by
    refine ⟨h1, h2, h3, h4, ?_⟩
    intro p hp hpar hch
    rcases h5 p hp hpar hch with h | h
    · exact h
    · cases h
  | p :: rest, acc, hsub, h1, h2, h3, h4, h5 => by
    rw [List.foldl_cons]
    by_cases hguard : (nodeKeyOf g o p).parents ≠ [] ∧ (nodeKeyOf g o p).children ≠ []
    · rw [if_pos hguard]
      have hp : p ∈ g.nodes := hsub p (List.mem_cons_self _ _)
      have inv1 : ((updateGroupI acc (nodeKeyOf g o p) p.1).map (fun kg => kg.1)).Nodup := by
        rw [updateGroupI_keys]
        by_cases hmem : nodeKeyOf g o p ∈ acc.map (fun kg => kg.1)
        · rw [if_pos hmem]; exact h1
        · rw [if_neg hmem]
          rw [List.nodup_append]
          exact ⟨h1, List.nodup_singleton _,
            fun a ha hb => hmem ((List.mem_singleton.mp hb) ▸ ha)⟩
      have inv2 : ∀ kg ∈ updateGroupI acc (nodeKeyOf g o p) p.1, (kg.2).Nodup := by
        intro kg' hkg'
        rcases updateGroupI_mem _ _ acc kg' hkg' with h | ⟨_, h | ⟨ms, hms, hn, he⟩⟩
        · exact h2 kg' h
        · rw [h]; exact List.nodup_singleton _
        · rw [he, List.nodup_append]
          exact ⟨h2 _ hms, List.nodup_singleton _,
            fun a ha hb => hn ((List.mem_singleton.mp hb) ▸ ha)⟩
      have inv3 : ∀ kg ∈ updateGroupI acc (nodeKeyOf g o p) p.1, ∀ m ∈ kg.2,
          ∃ q ∈ g.nodes, q.1 = m ∧ nodeKeyOf g o q = kg.1 := by
        intro kg' hkg' m hm
        rcases updateGroupI_mem _ _ acc kg' hkg' with h | ⟨hkey, h | ⟨ms, hms, _, he⟩⟩
        · exact h3 kg' h m hm
        · rw [h, List.mem_singleton] at hm
          exact ⟨p, hp, hm.symm, by rw [hkey]⟩
        · rw [he] at hm
          rcases List.mem_append.mp hm with hm' | hm'
          · rcases h3 _ hms m hm' with ⟨q, hq, hq1, hq2⟩
            exact ⟨q, hq, hq1, by rw [hq2, hkey]⟩
          · rw [List.mem_singleton] at hm'
            exact ⟨p, hp, hm'.symm, by rw [hkey]⟩
      have inv4 : ∀ kg ∈ updateGroupI acc (nodeKeyOf g o p) p.1,
          (kg.1).parents ≠ [] ∧ (kg.1).children ≠ [] := by
        intro kg' hkg'
        rcases updateGroupI_mem _ _ acc kg' hkg' with h | ⟨hkey, _⟩
        · exact h4 kg' h
        · rw [hkey]; exact hguard
      have inv5 : ∀ q ∈ g.nodes, (nodeKeyOf g o q).parents ≠ [] →
          (nodeKeyOf g o q).children ≠ [] →
          (∃ kg ∈ updateGroupI acc (nodeKeyOf g o p) p.1,
            kg.1 = nodeKeyOf g o q ∧ q.1 ∈ kg.2) ∨ q ∈ rest := by
        intro q hq hqpar hqch
        rcases h5 q hq hqpar hqch with ⟨kg, hkg, hkey, hmem⟩ | h
        · rcases updateGroupI_preserves (nodeKeyOf g o p) p.1 acc kg hkg with
            ⟨kg', hkg', hkey', hsub'⟩
          exact Or.inl ⟨kg', hkg', by rw [hkey', hkey], hsub' _ hmem⟩
        · rcases List.mem_cons.mp h with h' | h'
          · subst h'
            rcases updateGroupI_adds (nodeKeyOf g o q) q.1 acc with ⟨kg', hkg', hkey', hmem'⟩
            exact Or.inl ⟨kg', hkg', hkey', hmem'⟩
          · exact Or.inr h'
      exact groupsFold_wf g o rest _ (fun q hq => hsub q (List.mem_cons_of_mem _ hq))
        inv1 inv2 inv3 inv4 inv5
    · rw [if_neg hguard]
      refine groupsFold_wf g o rest acc (fun q hq => hsub q (List.mem_cons_of_mem _ hq))
        h1 h2 h3 h4 ?_
      intro q hq hqpar hqch
      rcases h5 q hq hqpar hqch with h | h
      · exact Or.inl h
      · rcases List.mem_cons.mp h with h' | h'
        · exfalso; subst h'; exact hguard ⟨hqpar, hqch⟩
        · exact Or.inr h'

theorem intermediateGroups_wf (g : VizGraph) (o : VizOptions) :
    GroupsWf g o (intermediateGroups g o) :=
  groupsFold_wf g o g.nodes [] (fun _ hp => hp) List.nodup_nil
    (fun _ h => absurd h (List.not_mem_nil _))
    (fun _ h => absurd h (List.not_mem_nil _))
    (fun _ h => absurd h (List.not_mem_nil _))
    (fun _ hp _ _ => Or.inr hp)

theorem groups_shared_key {g : VizGraph} {o : VizOptions}
    {G : List (MergeKeyI × List DNode)} (W : VizWf g) (GW : GroupsWf g o G) :
    ∀ kg ∈ G, ∀ kg' ∈ G, ∀ m, m ∈ kg.2 → m ∈ kg'.2 → kg = kg' := by
  intro kg hkg kg' hkg' m hm hm'
  rcases GW.memberEntry kg hkg m hm with ⟨p, hp, hp1, hp2⟩
  rcases GW.memberEntry kg' hkg' m hm' with ⟨q, hq, hq1, hq2⟩
  have hpq : p = q := assoc_nodup_eq W.nodupKeys hp hq (hp1.trans hq1.symm)
  refine assoc_nodup_eq GW.keysNodup hkg hkg' ?_
  rw [← hp2, ← hq2, hpq]

theorem replOfGroups_not_big {P : List (MergeKeyI × List DNode)} {w : DNode}
    (h : ¬isBigMember P w) : replOfGroups P w = w := by
  unfold replOfGroups
  have hfind : P.find? (fun kg => decide (2 ≤ kg.2.length) && decide (w ∈ kg.2)) = none := by
    rw [List.find?_eq_none]
    intro kg hkg h'
    rw [Bool.and_eq_true, decide_eq_true_eq, decide_eq_true_eq] at h'
    exact h ⟨kg, hkg, h'.1, h'.2⟩
  rw [hfind]

theorem replOfGroups_big {g : VizGraph} {o : VizOptions}
    {G : List (MergeKeyI × List DNode)} (W : VizWf g) (GW : GroupsWf g o G)
    {Q : List (MergeKeyI × List DNode)} (hsub : ∀ x ∈ Q, x ∈ G)
    {kg : MergeKeyI × List DNode} (hkg : kg ∈ Q) (hlen : 2 ≤ kg.2.length)
    {m : DNode} (hm : m ∈ kg.2) : replOfGroups Q m = mergedNodeKey kg.2 := by
  unfold replOfGroups
  cases hfind : Q.find? (fun kg' => decide (2 ≤ kg'.2.length) && decide (m ∈ kg'.2)) with
  | none =>
    exfalso
    have := List.find?_eq_none.mp hfind kg hkg
    rw [Bool.and_eq_true, decide_eq_true_eq, decide_eq_true_eq] at this
    exact this ⟨hlen, hm⟩
  | some kg₀ =>
    have hp := List.find?_some hfind
    have hmem := List.mem_of_find?_eq_some hfind
    rw [Bool.and_eq_true, decide_eq_true_eq, decide_eq_true_eq] at hp
    have : kg₀ = kg := groups_shared_key W GW kg₀ (hsub _ hmem) kg (hsub _ hkg) m hp.2 hm
    rw [this]

theorem bigMember_entry {g : VizGraph} {o : VizOptions}
    {G : List (MergeKeyI × List DNode)} (W : VizWf g) (GW : GroupsWf g o G)
    {Q : List (MergeKeyI × List DNode)} (hsub : ∀ x ∈ Q, x ∈ G)
    {w : DNode} (h : isBigMember Q w) :
    w.isBase = true ∧ w ∈ g.nodes.map (fun p => p.1) := by
  rcases h with ⟨kg, hkg, _, hm⟩
  rcases GW.memberEntry kg (hsub _ hkg) w hm with ⟨p, hp, hp1, _⟩
  constructor
  · rw [← hp1]; exact W.allBase p hp
  · rw [← hp1]; exact List.mem_map.mpr ⟨p, hp, rfl⟩

theorem mergedNodeKey_not_base (ms : List DNode) : (mergedNodeKey ms).isBase = false := rfl

theorem mergedNodeKey_mem_iff {ms ms' : List DNode}
    (h : mergedNodeKey ms = mergedNodeKey ms') : ∀ x, x ∈ ms ↔ x ∈ ms' := by
  simp only [mergedNodeKey, DNode.merged.injEq] at h
  intro x
  rw [← mem_dnodeSet, h, mem_dnodeSet]

theorem member_key_fields {g : VizGraph} {o : VizOptions}
    {G : List (MergeKeyI × List DNode)} (GW : GroupsWf g o G)
    {kg : MergeKeyI × List DNode} (hkg : kg ∈ G) {m : DNode} (hm : m ∈ kg.2) :
    (kg.1).parents = dnodeSet (g.predecessors m) ∧
      (kg.1).children = dnodeSet (g.successors m) := by
  rcases GW.memberEntry kg hkg m hm with ⟨p, _, hp1, hp2⟩
  subst hp1
  rw [← hp2]
  exact ⟨rfl, rfl⟩

theorem member_same_edges {g : VizGraph} {o : VizOptions}
    {G : List (MergeKeyI × List DNode)} (GW : GroupsWf g o G)
    {kg : MergeKeyI × List DNode} (hkg : kg ∈ G) {m m' : DNode}
    (hm : m ∈ kg.2) (hm' : m' ∈ kg.2) :
    ∀ w, ((w, m) ∈ g.edges ↔ (w, m') ∈ g.edges) ∧
      ((m, w) ∈ g.edges ↔ (m', w) ∈ g.edges) := by
  have f1 := member_key_fields GW hkg hm
  have f2 := member_key_fields GW hkg hm'
  have hpar := dnodeSet_inj.mp (f1.1.symm.trans f2.1)
  have hch := dnodeSet_inj.mp (f1.2.symm.trans f2.2)
  intro w
  constructor
  · rw [← mem_predecessors, ← mem_predecessors]
    exact hpar w
  · rw [← mem_successors, ← mem_successors]
    exact hch w

theorem no_intra_group_edge {g : VizGraph} {o : VizOptions}
    {G : List (MergeKeyI × List DNode)} (W : VizWf g) (GW : GroupsWf g o G)
    {kg : MergeKeyI × List DNode} (hkg : kg ∈ G) {m m' : DNode}
    (hm : m ∈ kg.2) (hm' : m' ∈ kg.2) : (m, m') ∉ g.edges := by
  intro h
  have hiff := (member_same_edges GW hkg hm' hm m).1
  have hself : (m, m) ∈ g.edges := hiff.mp h
  exact W.noSelfLoop (m, m) hself rfl

theorem isBigMember_append {P Q : List (MergeKeyI × List DNode)} {w : DNode} :
    isBigMember (P ++ Q) w ↔ isBigMember P w ∨ isBigMember Q w := by
  constructor
  · rintro ⟨kg, hkg, h1, h2⟩
    rcases List.mem_append.mp hkg with h | h
    · exact Or.inl ⟨kg, h, h1, h2⟩
    · exact Or.inr ⟨kg, h, h1, h2⟩
  · rintro (⟨kg, hkg, h1, h2⟩ | ⟨kg, hkg, h1, h2⟩)
    · exact ⟨kg, List.mem_append.mpr (Or.inl hkg), h1, h2⟩
    · exact ⟨kg, List.mem_append.mpr (Or.inr hkg), h1, h2⟩

theorem isBigMember_single {kg : MergeKeyI × List DNode} {w : DNode} :
    isBigMember [kg] w ↔ 2 ≤ kg.2.length ∧ w ∈ kg.2 := by
  constructor
  · rintro ⟨kg', hkg', h1, h2⟩
    rw [List.mem_singleton] at hkg'
    subst hkg'
    exact ⟨h1, h2⟩
  · rintro ⟨h1, h2⟩
    exact ⟨kg, List.mem_singleton.mpr rfl, h1, h2⟩

theorem replOfGroups_append_small {P : List (MergeKeyI × List DNode)}
    {kg : MergeKeyI × List DNode} (h : kg.2.length < 2) (w : DNode) :
    replOfGroups (P ++ [kg]) w = replOfGroups P w := by
  unfold replOfGroups
  rw [List.find?_append]
  cases hfind : P.find? (fun kg' => decide (2 ≤ kg'.2.length) && decide (w ∈ kg'.2)) with
  | some kg₀ => rfl
  | none =>
    have hone : List.find? (fun kg' => decide (2 ≤ kg'.2.length) && decide (w ∈ kg'.2)) [kg] =
        none := by
      rw [List.find?_cons_of_neg, List.find?_nil]
      rw [Bool.and_eq_true, decide_eq_true_eq, decide_eq_true_eq]
      rintro ⟨h1, _⟩
      omega
    rw [hone]
    rfl

theorem replOfGroups_append_big {P : List (MergeKeyI × List DNode)}
    {kg : MergeKeyI × List DNode} (hlen : 2 ≤ kg.2.length)
    (hdisj : ∀ m ∈ kg.2, ¬isBigMember P m) (w : DNode) :
    replOfGroups (P ++ [kg]) w =
      if w ∈ kg.2 then mergedNodeKey kg.2 else replOfGroups P w := by
  by_cases hw : w ∈ kg.2
  · rw [if_pos hw]
    unfold replOfGroups
    have hP : P.find? (fun kg' => decide (2 ≤ kg'.2.length) && decide (w ∈ kg'.2)) = none := by
      rw [List.find?_eq_none]
      intro kg' hkg' h'
      rw [Bool.and_eq_true, decide_eq_true_eq, decide_eq_true_eq] at h'
      exact hdisj w hw ⟨kg', hkg', h'.1, h'.2⟩
    rw [List.find?_append, hP]
    rw [List.find?_cons_of_pos]
    · rfl
    · rw [Bool.and_eq_true, decide_eq_true_eq, decide_eq_true_eq]
      exact ⟨hlen, hw⟩
  · rw [if_neg hw]
    unfold replOfGroups
    rw [List.find?_append]
    cases hfind : P.find? (fun kg' => decide (2 ≤ kg'.2.length) && decide (w ∈ kg'.2)) with
    | some kg₀ => rfl
    | none =>
      have hone : List.find? (fun kg' => decide (2 ≤ kg'.2.length) && decide (w ∈ kg'.2)) [kg] =
          none := by
        rw [List.find?_cons_of_neg, List.find?_nil]
        rw [Bool.and_eq_true, decide_eq_true_eq, decide_eq_true_eq]
        rintro ⟨_, h2⟩
        exact hw h2
      rw [hone]
      rfl

theorem foldl_addEdge_par (c : DNode) (r : List (DNode × DNode)) (L : List DNode)
    (g : VizGraph) (hpres : ∀ p ∈ L, getReplacement r p ∈ g.nodes.map (fun q => q.1))
    (hc : c ∈ g.nodes.map (fun q => q.1)) :
    (L.foldl (fun g par => g.addEdge (getReplacement r par) c) g).nodes = g.nodes ∧
      ∀ a b, ((a, b) ∈ (L.foldl (fun g par => g.addEdge (getReplacement r par) c) g).edges ↔
        (a, b) ∈ g.edges ∨ ∃ p ∈ L, a = getReplacement r p ∧ b = c) :=
  foldl_addEdge_spec (fun par => (getReplacement r par, c)) L g
    (fun p hp => ⟨hpres p hp, hc⟩)

theorem foldl_addEdge_ch (c : DNode) (r : List (DNode × DNode)) (L : List DNode)
    (g : VizGraph) (hpres : ∀ p ∈ L, getReplacement r p ∈ g.nodes.map (fun q => q.1))
    (hc : c ∈ g.nodes.map (fun q => q.1)) :
    (L.foldl (fun g ch => g.addEdge c (getReplacement r ch)) g).nodes = g.nodes ∧
      ∀ a b, ((a, b) ∈ (L.foldl (fun g ch => g.addEdge c (getReplacement r ch)) g).edges ↔
        (a, b) ∈ g.edges ∨ ∃ p ∈ L, a = c ∧ b = getReplacement r p) :=
  foldl_addEdge_spec (fun ch => (c, getReplacement r ch)) L g
    (fun p hp => ⟨hc, hpres p hp⟩)

theorem mergeStep_small_eq (st : VizGraph × List (DNode × DNode))
    (kg : MergeKeyI × List DNode) (h : kg.2.length < 2) :
    mergeIntermediatesGroupStep st kg = st := by
  simp only [mergeIntermediatesGroupStep, if_pos h]

theorem mergeStep_big_eq (st : VizGraph × List (DNode × DNode))
    (kg : MergeKeyI × List DNode) (h : ¬kg.2.length < 2) :
    mergeIntermediatesGroupStep st kg =
      (VizGraph.removeNodesFrom
        ((kg.1).children.foldl
          (fun g ch => g.addEdge (mergedNodeKey kg.2) (getReplacement st.2 ch))
          ((kg.1).parents.foldl
            (fun g par => g.addEdge (getReplacement st.2 par) (mergedNodeKey kg.2))
            (st.1.addNode (mergedNodeKey kg.2)
              ⟨(kg.1).dimensions, (kg.1).storageClassName, (kg.1).taskClassName⟩)))
        kg.2,
       kg.2.foldl (fun r m => (m, mergedNodeKey kg.2) :: r) st.2) := by
  simp only [mergeIntermediatesGroupStep, if_neg h]

theorem removeNodesFrom_nodes_mem {g : VizGraph} {s : List DNode} {p : DNode × VizNodeState} :
    p ∈ (g.removeNodesFrom s).nodes ↔ p ∈ g.nodes ∧ ¬p.1 ∈ s := by
  simp [VizGraph.removeNodesFrom, List.mem_filter]

theorem removeNodesFrom_edges_mem {g : VizGraph} {s : List DNode} {a b : DNode} :
    (a, b) ∈ (g.removeNodesFrom s).edges ↔ (a, b) ∈ g.edges ∧ ¬a ∈ s ∧ ¬b ∈ s := by
  simp [VizGraph.removeNodesFrom, List.mem_filter]

theorem addNode_edges (g : VizGraph) (u : DNode) (st : VizNodeState) :
    (g.addNode u st).edges = g.edges := by
  unfold VizGraph.addNode
  split <;> rfl

theorem StepInv_pair {g : VizGraph} {P : List (MergeKeyI × List DNode)}
    {A : VizGraph} {B : List (DNode × DNode)}
    (replSpec : ∀ w, getReplacement B w = replOfGroups P w)
    (entriesMem : ∀ p, p ∈ A.nodes ↔
      (p ∈ g.nodes ∧ ¬isBigMember P p.1) ∨
      ∃ kg ∈ P, 2 ≤ kg.2.length ∧
        p = (mergedNodeKey kg.2,
          ⟨(kg.1).dimensions, (kg.1).storageClassName, (kg.1).taskClassName⟩))
    (edgesMem : ∀ a b, (a, b) ∈ A.edges ↔
      ∃ e ∈ g.edges, replOfGroups P e.1 = a ∧ replOfGroups P e.2 = b)
    (nodupKeys : (A.nodes.map (fun p => p.1)).Nodup) : StepInv g P (A, B) :=
  ⟨replSpec, entriesMem, edgesMem, nodupKeys⟩

theorem stepInv_preserved {g : VizGraph} {o : VizOptions}
    {G : List (MergeKeyI × List DNode)} (W : VizWf g) (GW : GroupsWf g o G)
    {P : List (MergeKeyI × List DNode)} {kg : MergeKeyI × List DNode}
    (hPsub : ∀ x ∈ P ++ [kg], x ∈ G) (hkeyP : ¬kg.1 ∈ P.map (fun x => x.1))
    {st : VizGraph × List (DNode × DNode)} (inv : StepInv g P st) :
    StepInv g (P ++ [kg]) (mergeIntermediatesGroupStep st kg) := by
  have hkgG : kg ∈ G := hPsub kg (List.mem_append.mpr (Or.inr (List.mem_singleton.mpr rfl)))
  have hPG : ∀ x ∈ P, x ∈ G := fun x hx => hPsub x (List.mem_append.mpr (Or.inl hx))
  have hdisj : ∀ m ∈ kg.2, ¬isBigMember P m := by
    rintro m hm ⟨kg', hkg', _, hm'⟩
    have heq : kg = kg' := groups_shared_key W GW kg hkgG kg' (hPG _ hkg') m hm hm'
    exact hkeyP (List.mem_map.mpr ⟨kg', hkg', by rw [heq]⟩)
  by_cases hlen : kg.2.length < 2
  · rw [mergeStep_small_eq st kg hlen]
    have hbigiff : ∀ x, isBigMember (P ++ [kg]) x ↔ isBigMember P x := by
      intro x
      rw [isBigMember_append, isBigMember_single]
      constructor
      · rintro (h | ⟨h1, _⟩)
        · exact h
        · exact absurd h1 (by omega)
      · exact Or.inl
    refine ⟨?_, ?_, ?_, inv.nodupKeys⟩
    · intro w
      rw [inv.replSpec w, replOfGroups_append_small hlen w]
    · intro p
      rw [inv.entriesMem p]
      constructor
      · rintro (⟨h1, h2⟩ | ⟨kg', hkg', hl, he⟩)
        · exact Or.inl ⟨h1, fun hb => h2 ((hbigiff p.1).mp hb)⟩
        · exact Or.inr ⟨kg', List.mem_append.mpr (Or.inl hkg'), hl, he⟩
      · rintro (⟨h1, h2⟩ | ⟨kg', hkg', hl, he⟩)
        · exact Or.inl ⟨h1, fun hb => h2 ((hbigiff p.1).mpr hb)⟩
        · rcases List.mem_append.mp hkg' with h | h
          · exact Or.inr ⟨kg', h, hl, he⟩
          · rw [List.mem_singleton] at h
            subst h
            exact absurd hl (by omega)
    · intro a b
      rw [inv.edgesMem a b]
      constructor
      · rintro ⟨e, he, h1, h2⟩
        exact ⟨e, he, by rw [replOfGroups_append_small hlen]; exact h1,
          by rw [replOfGroups_append_small hlen]; exact h2⟩
      · rintro ⟨e, he, h1, h2⟩
        exact ⟨e, he, by rw [← replOfGroups_append_small hlen e.1]; exact h1,
          by rw [← replOfGroups_append_small hlen e.2]; exact h2⟩
  · have hlen2 : 2 ≤ kg.2.length := by omega
    have hmembase : ∀ m ∈ kg.2, m.isBase = true := by
      intro m hm
      rcases GW.memberEntry kg hkgG m hm with ⟨p, hp, hp1, _⟩
      rw [← hp1]
      exact W.allBase p hp
    have hmerged_notmem : ∀ xs : List DNode, ¬mergedNodeKey xs ∈ kg.2 := by
      intro xs hmem
      have hb := hmembase _ hmem
      simp [mergedNodeKey, DNode.isBase] at hb
    have hRPnot : ∀ w, ¬w ∈ kg.2 → ¬replOfGroups P w ∈ kg.2 := by
      intro w hw
      by_cases hb : isBigMember P w
      · rcases hb with ⟨kg', hkg', hl', hm'⟩
        rw [replOfGroups_big W GW hPG hkg' hl' hm']
        exact hmerged_notmem _
      · rw [replOfGroups_not_big hb]
        exact hw
    have hmnil : kg.2 ≠ [] := by
      intro h
      rw [h] at hlen2
      simp at hlen2
    obtain ⟨m₀, hm₀⟩ := List.exists_mem_of_ne_nil _ hmnil
    have hrepl' := replOfGroups_append_big hlen2 hdisj
    have hbig' : ∀ x, isBigMember (P ++ [kg]) x ↔ isBigMember P x ∨ x ∈ kg.2 := by
      intro x
      rw [isBigMember_append, isBigMember_single]
      constructor
      · rintro (h | ⟨_, h2⟩)
        · exact Or.inl h
        · exact Or.inr h2
      · rintro (h | h)
        · exact Or.inl h
        · exact Or.inr ⟨hlen2, h⟩
    have hmergedNotIn : ¬mergedNodeKey kg.2 ∈ (st.1).nodes.map (fun q => q.1) := by
      intro hmem
      rcases List.mem_map.mp hmem with ⟨p, hp, hp1⟩
      rcases (inv.entriesMem p).mp hp with ⟨hpg, _⟩ | ⟨kg', hkg', _, he'⟩
      · have hbase := W.allBase p hpg
        rw [hp1] at hbase
        simp [mergedNodeKey, DNode.isBase] at hbase
      · have hpk : mergedNodeKey kg'.2 = mergedNodeKey kg.2 := by
          rw [he'] at hp1
          exact hp1
        have hm₀' : m₀ ∈ kg'.2 := (mergedNodeKey_mem_iff hpk m₀).mpr hm₀
        have heq : kg = kg' := groups_shared_key W GW kg hkgG kg' (hPG _ hkg') m₀ hm₀ hm₀'
        exact hkeyP (List.mem_map.mpr ⟨kg', hkg', by rw [heq]⟩)
    have hg1 : st.1.addNode (mergedNodeKey kg.2)
        ⟨(kg.1).dimensions, (kg.1).storageClassName, (kg.1).taskClassName⟩ =
        { nodes := st.1.nodes ++ [(mergedNodeKey kg.2,
            ⟨(kg.1).dimensions, (kg.1).storageClassName, (kg.1).taskClassName⟩)],
          edges := st.1.edges } := addNode_fresh hmergedNotIn
    have hg1nodes : (st.1.addNode (mergedNodeKey kg.2)
        ⟨(kg.1).dimensions, (kg.1).storageClassName, (kg.1).taskClassName⟩).nodes =
        st.1.nodes ++ [(mergedNodeKey kg.2,
          ⟨(kg.1).dimensions, (kg.1).storageClassName, (kg.1).taskClassName⟩)] := by
      rw [hg1]
    have hg1edges : (st.1.addNode (mergedNodeKey kg.2)
        ⟨(kg.1).dimensions, (kg.1).storageClassName, (kg.1).taskClassName⟩).edges =
        st.1.edges := addNode_edges st.1 _ _
    have hreplPresent : ∀ w, w ∈ g.nodes.map (fun q => q.1) →
        replOfGroups P w ∈ (st.1).nodes.map (fun q => q.1) := by
      intro w hw
      by_cases hb : isBigMember P w
      · rcases hb with ⟨kg', hkg', hl', hm'⟩
        rw [replOfGroups_big W GW hPG hkg' hl' hm']
        refine List.mem_map.mpr ⟨(mergedNodeKey kg'.2,
          ⟨(kg'.1).dimensions, (kg'.1).storageClassName, (kg'.1).taskClassName⟩), ?_, rfl⟩
        exact (inv.entriesMem _).mpr (Or.inr ⟨kg', hkg', hl', rfl⟩)
      · rw [replOfGroups_not_big hb]
        rcases List.mem_map.mp hw with ⟨p, hp, hp1⟩
        refine List.mem_map.mpr ⟨p, ?_, hp1⟩
        refine (inv.entriesMem p).mpr (Or.inl ⟨hp, ?_⟩)
        rw [hp1]
        exact hb
    have hparEdge : ∀ par ∈ (kg.1).parents, (par, m₀) ∈ g.edges := by
      intro par hpar
      have hf := (member_key_fields GW hkgG hm₀).1
      rw [hf] at hpar
      exact mem_predecessors.mp (mem_dnodeSet.mp hpar)
    have hchEdge : ∀ ch ∈ (kg.1).children, (m₀, ch) ∈ g.edges := by
      intro ch hch
      have hf := (member_key_fields GW hkgG hm₀).2
      rw [hf] at hch
      exact mem_successors.mp (mem_dnodeSet.mp hch)
    have hparMem : ∀ par ∈ (kg.1).parents, getReplacement st.2 par ∈
        (st.1.addNode (mergedNodeKey kg.2)
          ⟨(kg.1).dimensions, (kg.1).storageClassName,
            (kg.1).taskClassName⟩).nodes.map (fun q => q.1) := by
      intro par hpar
      rw [hg1nodes, List.map_append, inv.replSpec par]
      exact List.mem_append.mpr
        (Or.inl (hreplPresent par (W.edgeFst _ (hparEdge par hpar))))
    have hnewIn : mergedNodeKey kg.2 ∈
        (st.1.addNode (mergedNodeKey kg.2)
          ⟨(kg.1).dimensions, (kg.1).storageClassName,
            (kg.1).taskClassName⟩).nodes.map (fun q => q.1) := by
      rw [hg1nodes, List.map_append]
      exact List.mem_append.mpr (Or.inr (by simp))
    have hf2 := foldl_addEdge_par (mergedNodeKey kg.2) st.2 (kg.1).parents
      (st.1.addNode (mergedNodeKey kg.2)
        ⟨(kg.1).dimensions, (kg.1).storageClassName, (kg.1).taskClassName⟩)
      hparMem hnewIn
    have hchMem : ∀ ch ∈ (kg.1).children, getReplacement st.2 ch ∈
        ((kg.1).parents.foldl
          (fun g par => g.addEdge (getReplacement st.2 par) (mergedNodeKey kg.2))
          (st.1.addNode (mergedNodeKey kg.2)
            ⟨(kg.1).dimensions, (kg.1).storageClassName,
              (kg.1).taskClassName⟩)).nodes.map (fun q => q.1) := by
      intro ch hch
      rw [hf2.1, hg1nodes, List.map_append, inv.replSpec ch]
      exact List.mem_append.mpr
        (Or.inl (hreplPresent ch (W.edgeSnd _ (hchEdge ch hch))))
    have hnewIn2 : mergedNodeKey kg.2 ∈
        ((kg.1).parents.foldl
          (fun g par => g.addEdge (getReplacement st.2 par) (mergedNodeKey kg.2))
          (st.1.addNode (mergedNodeKey kg.2)
            ⟨(kg.1).dimensions, (kg.1).storageClassName,
              (kg.1).taskClassName⟩)).nodes.map (fun q => q.1) := by
      rw [hf2.1]
      exact hnewIn
    have hf3 := foldl_addEdge_ch (mergedNodeKey kg.2) st.2 (kg.1).children
      ((kg.1).parents.foldl
        (fun g par => g.addEdge (getReplacement st.2 par) (mergedNodeKey kg.2))
        (st.1.addNode (mergedNodeKey kg.2)
          ⟨(kg.1).dimensions, (kg.1).storageClassName, (kg.1).taskClassName⟩))
      hchMem hnewIn2
    rw [mergeStep_big_eq st kg hlen]
    refine StepInv_pair ?_ ?_ ?_ ?_
    · intro w
      rw [foldl_consRepl_spec, hrepl' w, inv.replSpec w]
    · intro p
      rw [removeNodesFrom_nodes_mem, hf3.1, hf2.1, hg1nodes, List.mem_append,
        List.mem_singleton]
      constructor
      · rintro ⟨hp | hp, hnot⟩
        · rcases (inv.entriesMem p).mp hp with ⟨h1, h2⟩ | ⟨kg', hkg', hl', he'⟩
          · refine Or.inl ⟨h1, ?_⟩
            rw [hbig']
            rintro (h | h)
            · exact h2 h
            · exact hnot h
          · exact Or.inr ⟨kg', List.mem_append.mpr (Or.inl hkg'), hl', he'⟩
        · exact Or.inr ⟨kg, List.mem_append.mpr (Or.inr (List.mem_singleton.mpr rfl)),
            hlen2, hp⟩
      · rintro (⟨h1, h2⟩ | ⟨kg', hkg', hl', he'⟩)
        · have hnb : ¬isBigMember P p.1 := fun h => h2 ((hbig' p.1).mpr (Or.inl h))
          have hnm : ¬p.1 ∈ kg.2 := fun h => h2 ((hbig' p.1).mpr (Or.inr h))
          exact ⟨Or.inl ((inv.entriesMem p).mpr (Or.inl ⟨h1, hnb⟩)), hnm⟩
        · rcases List.mem_append.mp hkg' with h | h
          · refine ⟨Or.inl ((inv.entriesMem p).mpr (Or.inr ⟨kg', h, hl', he'⟩)), ?_⟩
            rw [he']
            exact hmerged_notmem _
          · rw [List.mem_singleton] at h
            subst h
            refine ⟨Or.inr he', ?_⟩
            rw [he']
            exact hmerged_notmem _
    · intro a b
      rw [removeNodesFrom_edges_mem, hf3.2 a b, hf2.2 a b, hg1edges, inv.edgesMem a b]
      constructor
      · rintro ⟨(⟨e, he, h1, h2⟩ | ⟨par, hpar, h1, h2⟩) | ⟨ch, hch, h1, h2⟩, hna, hnb⟩
        · have he1 : ¬e.1 ∈ kg.2 := by
            intro hmem
            rw [replOfGroups_not_big (hdisj _ hmem)] at h1
            exact hna (h1 ▸ hmem)
          have he2 : ¬e.2 ∈ kg.2 := by
            intro hmem
            rw [replOfGroups_not_big (hdisj _ hmem)] at h2
            exact hnb (h2 ▸ hmem)
          refine ⟨e, he, ?_, ?_⟩
          · rw [hrepl' e.1, if_neg he1]
            exact h1
          · rw [hrepl' e.2, if_neg he2]
            exact h2
        · have hparnot : ¬par ∈ kg.2 := fun hmem =>
            no_intra_group_edge W GW hkgG hmem hm₀ (hparEdge par hpar)
          refine ⟨(par, m₀), hparEdge par hpar, ?_, ?_⟩
          · show replOfGroups (P ++ [kg]) par = a
            rw [hrepl' par, if_neg hparnot]
            rw [inv.replSpec par] at h1
            exact h1.symm
          · show replOfGroups (P ++ [kg]) m₀ = b
            rw [hrepl' m₀, if_pos hm₀]
            exact h2.symm
        · have hchnot : ¬ch ∈ kg.2 := fun hmem =>
            no_intra_group_edge W GW hkgG hm₀ hmem (hchEdge ch hch)
          refine ⟨(m₀, ch), hchEdge ch hch, ?_, ?_⟩
          · show replOfGroups (P ++ [kg]) m₀ = a
            rw [hrepl' m₀, if_pos hm₀]
            exact h1.symm
          · show replOfGroups (P ++ [kg]) ch = b
            rw [hrepl' ch, if_neg hchnot]
            rw [inv.replSpec ch] at h2
            exact h2.symm
      · rintro ⟨⟨u, v⟩, he, h1, h2⟩
        have h1' : replOfGroups (P ++ [kg]) u = a := h1
        have h2' : replOfGroups (P ++ [kg]) v = b := h2
        by_cases hu : u ∈ kg.2 <;> by_cases hv : v ∈ kg.2
        · exact absurd he (no_intra_group_edge W GW hkgG hu hv)
        · rw [hrepl' u, if_pos hu] at h1'
          rw [hrepl' v, if_neg hv] at h2'
          have hvch : v ∈ (kg.1).children := by
            rw [(member_key_fields GW hkgG hu).2]
            exact mem_dnodeSet.mpr (mem_successors.mpr he)
          refine ⟨Or.inr ⟨v, hvch, h1'.symm, ?_⟩, ?_, ?_⟩
          · rw [inv.replSpec v]
            exact h2'.symm
          · rw [← h1']
            exact hmerged_notmem _
          · rw [← h2']
            exact hRPnot v hv
        · rw [hrepl' u, if_neg hu] at h1'
          rw [hrepl' v, if_pos hv] at h2'
          have hupar : u ∈ (kg.1).parents := by
            rw [(member_key_fields GW hkgG hv).1]
            exact mem_dnodeSet.mpr (mem_predecessors.mpr he)
          refine ⟨Or.inl (Or.inr ⟨u, hupar, ?_, h2'.symm⟩), ?_, ?_⟩
          · rw [inv.replSpec u]
            exact h1'.symm
          · rw [← h1']
            exact hRPnot u hu
          · rw [← h2']
            exact hmerged_notmem _
        · rw [hrepl' u, if_neg hu] at h1'
          rw [hrepl' v, if_neg hv] at h2'
          refine ⟨Or.inl (Or.inl ⟨(u, v), he, h1', h2'⟩), ?_, ?_⟩
          · rw [← h1']
            exact hRPnot u hu
          · rw [← h2']
            exact hRPnot v hv
    · have hrwn : (VizGraph.removeNodesFrom
          ((kg.1).children.foldl
            (fun g ch => g.addEdge (mergedNodeKey kg.2) (getReplacement st.2 ch))
            ((kg.1).parents.foldl
              (fun g par => g.addEdge (getReplacement st.2 par) (mergedNodeKey kg.2))
              (st.1.addNode (mergedNodeKey kg.2)
                ⟨(kg.1).dimensions, (kg.1).storageClassName, (kg.1).taskClassName⟩)))
          kg.2).nodes.Sublist
          ((kg.1).children.foldl
            (fun g ch => g.addEdge (mergedNodeKey kg.2) (getReplacement st.2 ch))
            ((kg.1).parents.foldl
              (fun g par => g.addEdge (getReplacement st.2 par) (mergedNodeKey kg.2))
              (st.1.addNode (mergedNodeKey kg.2)
                ⟨(kg.1).dimensions, (kg.1).storageClassName,
                  (kg.1).taskClassName⟩))).nodes :=
        List.filter_sublist _
      have hnd : (((kg.1).children.foldl
          (fun g ch => g.addEdge (mergedNodeKey kg.2) (getReplacement st.2 ch))
          ((kg.1).parents.foldl
            (fun g par => g.addEdge (getReplacement st.2 par) (mergedNodeKey kg.2))
            (st.1.addNode (mergedNodeKey kg.2)
              ⟨(kg.1).dimensions, (kg.1).storageClassName,
                (kg.1).taskClassName⟩))).nodes.map (fun p => p.1)).Nodup := by
        rw [hf3.1, hf2.1, hg1nodes, List.map_append]
        rw [List.nodup_append]
        refine ⟨inv.nodupKeys, by simp, ?_⟩
        intro x hx hx'
        simp only [List.map_cons, List.map_nil, List.mem_singleton] at hx'
        rw [hx'] at hx
        exact hmergedNotIn hx
      exact List.Nodup.sublist (List.Sublist.map _ hrwn) hnd

theorem stepInv_fold {g : VizGraph} {o : VizOptions}
    {G : List (MergeKeyI × List DNode)} (W : VizWf g) (GW : GroupsWf g o G) :
    ∀ (S P : List (MergeKeyI × List DNode)) (st : VizGraph × List (DNode × DNode)),
      G = P ++ S → StepInv g P st →
      StepInv g G (S.foldl mergeIntermediatesGroupStep st)
  | [], P, st, hG, inv => by
    rw [List.foldl_nil, hG, List.append_nil]
    exact inv
  | kg :: S', P, st, hG, inv => by
    rw [List.foldl_cons]
    have hPsub : ∀ x ∈ P ++ [kg], x ∈ G := by
      intro x hx
      rw [hG]
      rcases List.mem_append.mp hx with h | h
      · exact List.mem_append.mpr (Or.inl h)
      · rw [List.mem_singleton] at h
        subst h
        exact List.mem_append.mpr (Or.inr (List.mem_cons_self _ _))
    have hkeyP : ¬kg.1 ∈ P.map (fun x => x.1) := by
      intro hmem
      have hnd := GW.keysNodup
      rw [hG, List.map_append] at hnd
      rcases List.nodup_append.mp hnd with ⟨_, _, hdisj⟩
      exact hdisj hmem (by simp)
    have inv' := stepInv_preserved W GW hPsub hkeyP inv
    exact stepInv_fold W GW S' (P ++ [kg]) _ (by rw [hG, List.append_assoc]; rfl) inv'

theorem stepInv_init {g : VizGraph} (W : VizWf g) : StepInv g [] (g, []) := by
  refine StepInv_pair ?_ ?_ ?_ W.nodupKeys
  · intro w
    rfl
  · intro p
    constructor
    · intro hp
      refine Or.inl ⟨hp, ?_⟩
      rintro ⟨kg, hkg, _, _⟩
      cases hkg
    · rintro (⟨hp, _⟩ | ⟨kg, hkg, _, _⟩)
      · exact hp
      · cases hkg
  · intro a b
    constructor
    · intro h
      exact ⟨(a, b), h, rfl, rfl⟩
    · rintro ⟨e, he, h1, h2⟩
      have h1' : e.1 = a := h1
      have h2' : e.2 = b := h2
      rw [← h1', ← h2']
      exact he

theorem mergeGraphIntermediates_eq (g : VizGraph) (o : VizOptions) :
    mergeGraphIntermediates g o =
      ((intermediateGroups g o).foldl mergeIntermediatesGroupStep (g, [])).1 := rfl

theorem mergeGraphIntermediates_inv {g : VizGraph} (o : VizOptions) (W : VizWf g) :
    StepInv g (intermediateGroups g o)
      ((intermediateGroups g o).foldl mergeIntermediatesGroupStep (g, [])) :=
  stepInv_fold W (intermediateGroups_wf g o) (intermediateGroups g o) [] (g, []) rfl
    (stepInv_init W)

theorem foldl_step_small (st : VizGraph × List (DNode × DNode)) :
    ∀ groups : List (MergeKeyI × List DNode),
      (∀ kg ∈ groups, kg.2.length < 2) →
      groups.foldl mergeIntermediatesGroupStep st = st
  | [], _ => rfl
  | kg :: rest, h => by
    rw [List.foldl_cons, mergeStep_small_eq st kg (h kg (List.mem_cons_self _ _))]
    exact foldl_step_small st rest (fun kg' h' => h kg' (List.mem_cons_of_mem _ h'))

theorem nodes_base {g : VizGraph} (W : VizWf g) :
    ∀ z ∈ g.nodes.map (fun p => p.1), z.isBase = true := by
  intro z hz
  rcases List.mem_map.mp hz with ⟨p, hp, hp1⟩
  rw [← hp1]
  exact W.allBase p hp

theorem repl_eq_base {g : VizGraph} {o : VizOptions}
    {G : List (MergeKeyI × List DNode)} (W : VizWf g) (GW : GroupsWf g o G)
    {v x : DNode} (hxb : x.isBase = true) (hrv : replOfGroups G v = x) :
    ¬isBigMember G v ∧ v = x := by
  by_cases hb : isBigMember G v
  · rcases hb with ⟨kg, hkg, hl, hm⟩
    rw [replOfGroups_big W GW (fun _ h => h) hkg hl hm] at hrv
    rw [← hrv] at hxb
    simp [mergedNodeKey, DNode.isBase] at hxb
  · refine ⟨hb, ?_⟩
    rw [replOfGroups_not_big hb] at hrv
    exact hrv

theorem repl_eq_merged {g : VizGraph} {o : VizOptions}
    {G : List (MergeKeyI × List DNode)} (W : VizWf g) (GW : GroupsWf g o G)
    {v : DNode} (hvb : v.isBase = true) {kg : MergeKeyI × List DNode}
    (hrv : replOfGroups G v = mergedNodeKey kg.2) : v ∈ kg.2 := by
  by_cases hb : isBigMember G v
  · rcases hb with ⟨kg', hkg', hl', hm'⟩
    rw [replOfGroups_big W GW (fun _ h => h) hkg' hl' hm'] at hrv
    exact (mergedNodeKey_mem_iff hrv v).mp hm'
  · rw [replOfGroups_not_big hb] at hrv
    rw [hrv] at hvb
    simp [mergedNodeKey, DNode.isBase] at hvb

theorem image_subset_pred {g : VizGraph} {o : VizOptions}
    {G : List (MergeKeyI × List DNode)} (W : VizWf g) (GW : GroupsWf g o G)
    {y' : DNode}
    {Pr : DNode → Prop}
    (himg : ∀ a, (∃ u, Pr u ∧ replOfGroups G u = a) →
      ∃ u, (u, y') ∈ g.edges ∧ replOfGroups G u = a)
    (hbase : ∀ u, Pr u → u.isBase = true) :
    ∀ u, Pr u → (u, y') ∈ g.edges := by
  intro u hu
  rcases himg (replOfGroups G u) ⟨u, hu, rfl⟩ with ⟨u', hu', hru⟩
  have hub : u.isBase = true := hbase u hu
  have hub' : u'.isBase = true :=
    nodes_base W u' (W.edgeFst _ hu')
  by_cases hb : isBigMember G u
  · rcases hb with ⟨kg, hkg, hl, hm⟩
    rw [replOfGroups_big W GW (fun _ h => h) hkg hl hm] at hru
    have hu'm : u' ∈ kg.2 := repl_eq_merged W GW hub' hru
    exact (member_same_edges GW hkg hu'm hm y').2.mp hu'
  · rw [replOfGroups_not_big hb] at hru
    rcases repl_eq_base W GW hub hru with ⟨_, heq⟩
    rw [← heq]
    exact hu'

theorem image_subset_succ {g : VizGraph} {o : VizOptions}
    {G : List (MergeKeyI × List DNode)} (W : VizWf g) (GW : GroupsWf g o G)
    {y' : DNode}
    {Pr : DNode → Prop}
    (himg : ∀ a, (∃ u, Pr u ∧ replOfGroups G u = a) →
      ∃ u, (y', u) ∈ g.edges ∧ replOfGroups G u = a)
    (hbase : ∀ u, Pr u → u.isBase = true) :
    ∀ u, Pr u → (y', u) ∈ g.edges := by
  intro u hu
  rcases himg (replOfGroups G u) ⟨u, hu, rfl⟩ with ⟨u', hu', hru⟩
  have hub : u.isBase = true := hbase u hu
  have hub' : u'.isBase = true :=
    nodes_base W u' (W.edgeSnd _ hu')
  by_cases hb : isBigMember G u
  · rcases hb with ⟨kg, hkg, hl, hm⟩
    rw [replOfGroups_big W GW (fun _ h => h) hkg hl hm] at hru
    have hu'm : u' ∈ kg.2 := repl_eq_merged W GW hub' hru
    exact (member_same_edges GW hkg hu'm hm y').1.mp hu'
  · rw [replOfGroups_not_big hb] at hru
    rcases repl_eq_base W GW hub hru with ⟨_, heq⟩
    rw [← heq]
    exact hu'

theorem run2_representative {g : VizGraph} {o : VizOptions} (W : VizWf g)
    {F : VizGraph × List (DNode × DNode)}
    (inv : StepInv g (intermediateGroups g o) F)
    {p : DNode × VizNodeState} (hp : p ∈ (F.1).nodes) :
    ∃ q ∈ g.nodes,
      (∀ a, (∃ e ∈ g.edges, replOfGroups (intermediateGroups g o) e.1 = a ∧
          replOfGroups (intermediateGroups g o) e.2 = p.1) ↔
        (∃ u, (u, q.1) ∈ g.edges ∧ replOfGroups (intermediateGroups g o) u = a)) ∧
      (∀ a, (∃ e ∈ g.edges, replOfGroups (intermediateGroups g o) e.1 = p.1 ∧
          replOfGroups (intermediateGroups g o) e.2 = a) ↔
        (∃ u, (q.1, u) ∈ g.edges ∧ replOfGroups (intermediateGroups g o) u = a)) ∧
      ((if o.dimensions then p.2.dimensions else none) =
        (if o.dimensions then q.2.dimensions else none)) ∧
      ((if o.storageClasses then p.2.storageClassName else none) =
        (if o.storageClasses then q.2.storageClassName else none)) ∧
      ((if o.taskClasses then p.2.taskClassName else none) =
        (if o.taskClasses then q.2.taskClassName else none)) ∧
      ((¬isBigMember (intermediateGroups g o) q.1 ∧ p.1 = q.1) ∨
        ∃ kg ∈ intermediateGroups g o, 2 ≤ kg.2.length ∧ q.1 ∈ kg.2 ∧
          p.1 = mergedNodeKey kg.2) := by
  have GW1 := intermediateGroups_wf g o
  rcases (inv.entriesMem p).mp hp with ⟨hpg, hnb⟩ | ⟨kg, hkg, hl, he⟩
  · have hpb : (p.1).isBase = true := W.allBase p hpg
    refine ⟨p, hpg, ?_, ?_, rfl, rfl, rfl, Or.inl ⟨hnb, rfl⟩⟩
    · intro a
      constructor
      · rintro ⟨e, hee, h1, h2⟩
        rcases repl_eq_base W GW1 hpb h2 with ⟨_, heq⟩
        refine ⟨e.1, ?_, h1⟩
        rw [← heq]
        exact hee
      · rintro ⟨u, hu, hru⟩
        refine ⟨(u, p.1), hu, hru, ?_⟩
        exact replOfGroups_not_big hnb
    · intro a
      constructor
      · rintro ⟨e, hee, h1, h2⟩
        rcases repl_eq_base W GW1 hpb h1 with ⟨_, heq⟩
        refine ⟨e.2, ?_, h2⟩
        rw [← heq]
        exact hee
      · rintro ⟨u, hu, hru⟩
        refine ⟨(p.1, u), hu, ?_, hru⟩
        exact replOfGroups_not_big hnb
  · have hmnil : kg.2 ≠ [] := by
      intro h
      rw [h] at hl
      simp at hl
    obtain ⟨a₀, ha₀⟩ := List.exists_mem_of_ne_nil _ hmnil
    obtain ⟨q, hq, hq1, hq2⟩ := GW1.memberEntry kg hkg a₀ ha₀
    have hp1 : p.1 = mergedNodeKey kg.2 := by rw [he]
    have hqmem : q.1 ∈ kg.2 := by
      rw [hq1]
      exact ha₀
    refine ⟨q, hq, ?_, ?_, ?_, ?_, ?_, Or.inr ⟨kg, hkg, hl, hqmem, hp1⟩⟩
    · intro a
      constructor
      · rintro ⟨e, hee, h1, h2⟩
        rw [hp1] at h2
        have hbe : (e.2).isBase = true := nodes_base W _ (W.edgeSnd _ hee)
        have hm2 : e.2 ∈ kg.2 := repl_eq_merged W GW1 hbe h2
        refine ⟨e.1, ?_, h1⟩
        exact (member_same_edges GW1 hkg hm2 hqmem e.1).1.mp hee
      · rintro ⟨u, hu, hru⟩
        refine ⟨(u, q.1), hu, hru, ?_⟩
        show replOfGroups (intermediateGroups g o) q.1 = p.1
        rw [hp1]
        exact replOfGroups_big W GW1 (fun _ h => h) hkg hl hqmem
    · intro a
      constructor
      · rintro ⟨e, hee, h1, h2⟩
        rw [hp1] at h1
        have hbe : (e.1).isBase = true := nodes_base W _ (W.edgeFst _ hee)
        have hm1 : e.1 ∈ kg.2 := repl_eq_merged W GW1 hbe h1
        refine ⟨e.2, ?_, h2⟩
        exact (member_same_edges GW1 hkg hm1 hqmem e.2).2.mp hee
      · rintro ⟨u, hu, hru⟩
        refine ⟨(q.1, u), hu, ?_, hru⟩
        show replOfGroups (intermediateGroups g o) q.1 = p.1
        rw [hp1]
        exact replOfGroups_big W GW1 (fun _ h => h) hkg hl hqmem
    · have hkd : (kg.1).dimensions = if o.dimensions then q.2.dimensions else none := by
        rw [← hq2]
        rfl
      have hpd : p.2.dimensions = (kg.1).dimensions := by rw [he]
      rw [hpd, hkd]
      cases o.dimensions <;> simp
    · have hkd : (kg.1).storageClassName =
          if o.storageClasses then q.2.storageClassName else none := by
        rw [← hq2]
        rfl
      have hpd : p.2.storageClassName = (kg.1).storageClassName := by rw [he]
      rw [hpd, hkd]
      cases o.storageClasses <;> simp
    · have hkd : (kg.1).taskClassName =
          if o.taskClasses then q.2.taskClassName else none := by
        rw [← hq2]
        rfl
      have hpd : p.2.taskClassName = (kg.1).taskClassName := by rw [he]
      rw [hpd, hkd]
      cases o.taskClasses <;> simp

theorem run2_no_two {g : VizGraph} {o : VizOptions} (W : VizWf g)
    {px py : DNode × VizNodeState}
    (hpx : px ∈ (mergeGraphIntermediates g o).nodes)
    (hpy : py ∈ (mergeGraphIntermediates g o).nodes)
    (hne : px.1 ≠ py.1)
    (hkey : nodeKeyOf (mergeGraphIntermediates g o) o px =
      nodeKeyOf (mergeGraphIntermediates g o) o py)
    (hpar : (nodeKeyOf (mergeGraphIntermediates g o) o px).parents ≠ [])
    (hch : (nodeKeyOf (mergeGraphIntermediates g o) o px).children ≠ []) : False := by
  have GW1 := intermediateGroups_wf g o
  have inv := mergeGraphIntermediates_inv o W
  have hpx' : px ∈
      (((intermediateGroups g o).foldl mergeIntermediatesGroupStep (g, [])).1).nodes := hpx
  have hpy' : py ∈
      (((intermediateGroups g o).foldl mergeIntermediatesGroupStep (g, [])).1).nodes := hpy
  obtain ⟨qx, hqx, hprx, hsrx, hdx, hsx, htx, hlinkx⟩ := run2_representative W inv hpx'
  obtain ⟨qy, hqy, hpry, hsry, hdy, hsy, hty, hlinky⟩ := run2_representative W inv hpy'
  have hedges : ∀ a b, ((a, b) ∈ (mergeGraphIntermediates g o).edges ↔
      ∃ e ∈ g.edges, replOfGroups (intermediateGroups g o) e.1 = a ∧
        replOfGroups (intermediateGroups g o) e.2 = b) := inv.edgesMem
  have hp2 : dnodeSet ((mergeGraphIntermediates g o).predecessors px.1) =
      dnodeSet ((mergeGraphIntermediates g o).predecessors py.1) :=
    congrArg MergeKeyI.parents hkey
  have hc2 : dnodeSet ((mergeGraphIntermediates g o).successors px.1) =
      dnodeSet ((mergeGraphIntermediates g o).successors py.1) :=
    congrArg MergeKeyI.children hkey
  have hpredmem := dnodeSet_inj.mp hp2
  have hsuccmem := dnodeSet_inj.mp hc2
  have himgP : ∀ a, (∃ e ∈ g.edges, replOfGroups (intermediateGroups g o) e.1 = a ∧
      replOfGroups (intermediateGroups g o) e.2 = px.1) ↔
      (∃ e ∈ g.edges, replOfGroups (intermediateGroups g o) e.1 = a ∧
        replOfGroups (intermediateGroups g o) e.2 = py.1) := by
    intro a
    rw [← hedges a px.1, ← hedges a py.1, ← mem_predecessors, ← mem_predecessors]
    exact hpredmem a
  have himgS : ∀ a, (∃ e ∈ g.edges, replOfGroups (intermediateGroups g o) e.1 = px.1 ∧
      replOfGroups (intermediateGroups g o) e.2 = a) ↔
      (∃ e ∈ g.edges, replOfGroups (intermediateGroups g o) e.1 = py.1 ∧
        replOfGroups (intermediateGroups g o) e.2 = a) := by
    intro a
    rw [← hedges px.1 a, ← hedges py.1 a, ← mem_successors, ← mem_successors]
    exact hsuccmem a
  have hIx : ∀ a, (∃ u, (u, qx.1) ∈ g.edges ∧
      replOfGroups (intermediateGroups g o) u = a) ↔
      (∃ u, (u, qy.1) ∈ g.edges ∧ replOfGroups (intermediateGroups g o) u = a) :=
    fun a => (hprx a).symm.trans ((himgP a).trans (hpry a))
  have hIxS : ∀ a, (∃ u, (qx.1, u) ∈ g.edges ∧
      replOfGroups (intermediateGroups g o) u = a) ↔
      (∃ u, (qy.1, u) ∈ g.edges ∧ replOfGroups (intermediateGroups g o) u = a) :=
    fun a => (hsrx a).symm.trans ((himgS a).trans (hsry a))
  have hPedge : ∀ u, (u, qx.1) ∈ g.edges ↔ (u, qy.1) ∈ g.edges := by
    intro u
    constructor
    · exact fun hu => image_subset_pred W GW1 (fun a h => (hIx a).mp h)
        (fun u' hu' => nodes_base W u' (W.edgeFst _ hu')) u hu
    · exact fun hu => image_subset_pred W GW1 (fun a h => (hIx a).mpr h)
        (fun u' hu' => nodes_base W u' (W.edgeFst _ hu')) u hu
  have hSedge : ∀ u, (qx.1, u) ∈ g.edges ↔ (qy.1, u) ∈ g.edges := by
    intro u
    constructor
    · exact fun hu => image_subset_succ W GW1 (fun a h => (hIxS a).mp h)
        (fun u' hu' => nodes_base W u' (W.edgeSnd _ hu')) u hu
    · exact fun hu => image_subset_succ W GW1 (fun a h => (hIxS a).mpr h)
        (fun u' hu' => nodes_base W u' (W.edgeSnd _ hu')) u hu
  have hK1 : nodeKeyOf g o qx = nodeKeyOf g o qy := by
    have hparents : dnodeSet (g.predecessors qx.1) = dnodeSet (g.predecessors qy.1) :=
      dnodeSet_ext (fun u => by
        rw [mem_predecessors, mem_predecessors]
        exact hPedge u)
    have hchildren : dnodeSet (g.successors qx.1) = dnodeSet (g.successors qy.1) :=
      dnodeSet_ext (fun u => by
        rw [mem_successors, mem_successors]
        exact hSedge u)
    have hKdims : (if o.dimensions then px.2.dimensions else none) =
        (if o.dimensions then py.2.dimensions else none) :=
      congrArg MergeKeyI.dimensions hkey
    have hKsc : (if o.storageClasses then px.2.storageClassName else none) =
        (if o.storageClasses then py.2.storageClassName else none) :=
      congrArg MergeKeyI.storageClassName hkey
    have hKtc : (if o.taskClasses then px.2.taskClassName else none) =
        (if o.taskClasses then py.2.taskClassName else none) :=
      congrArg MergeKeyI.taskClassName hkey
    show mergeKeyIFromNodeState qx.2 (g.predecessors qx.1) (g.successors qx.1) o =
      mergeKeyIFromNodeState qy.2 (g.predecessors qy.1) (g.successors qy.1) o
    unfold mergeKeyIFromNodeState
    simp only [MergeKeyI.mk.injEq]
    refine ⟨hparents, ?_, ?_, ?_, hchildren⟩
    · exact hdx.symm.trans (hKdims.trans hdy)
    · exact hsx.symm.trans (hKsc.trans hsy)
    · exact htx.symm.trans (hKtc.trans hty)
  have hpar' : dnodeSet ((mergeGraphIntermediates g o).predecessors px.1) ≠ [] := hpar
  obtain ⟨a1, ha1⟩ := List.exists_mem_of_ne_nil _ hpar'
  obtain ⟨u1, hu1, _⟩ :=
    (hprx a1).mp ((hedges a1 px.1).mp (mem_predecessors.mp (mem_dnodeSet.mp ha1)))
  have hqx_par : (nodeKeyOf g o qx).parents ≠ [] := by
    show dnodeSet (g.predecessors qx.1) ≠ []
    exact List.ne_nil_of_mem (mem_dnodeSet.mpr (mem_predecessors.mpr hu1))
  have hch' : dnodeSet ((mergeGraphIntermediates g o).successors px.1) ≠ [] := hch
  obtain ⟨a2, ha2⟩ := List.exists_mem_of_ne_nil _ hch'
  obtain ⟨u2, hu2, _⟩ :=
    (hsrx a2).mp ((hedges px.1 a2).mp (mem_successors.mp (mem_dnodeSet.mp ha2)))
  have hqx_ch : (nodeKeyOf g o qx).children ≠ [] := by
    show dnodeSet (g.successors qx.1) ≠ []
    exact List.ne_nil_of_mem (mem_dnodeSet.mpr (mem_successors.mpr hu2))
  obtain ⟨Γx, hΓx, hΓxk, hqxΓ⟩ := GW1.complete qx hqx hqx_par hqx_ch
  obtain ⟨Γy, hΓy, hΓyk, hqyΓ⟩ := GW1.complete qy hqy
    (by rw [← hK1]; exact hqx_par) (by rw [← hK1]; exact hqx_ch)
  have hΓeq : Γx = Γy :=
    assoc_nodup_eq GW1.keysNodup hΓx hΓy (by rw [hΓxk, hΓyk, hK1])
  have hqyΓ' : qy.1 ∈ Γx.2 := by
    rw [hΓeq]
    exact hqyΓ
  rcases hlinkx with ⟨hnbx, hpqx⟩ | ⟨kgx, hkgx, hlx, hqx2, hpx1⟩ <;>
    rcases hlinky with ⟨hnby, hpqy⟩ | ⟨kgy, hkgy, hly, hqy2, hpy1⟩
  · have hneq : qx.1 ≠ qy.1 := by
      rw [← hpqx, ← hpqy]
      exact hne
    exact hnbx ⟨Γx, hΓx, two_le_of_two_mem hqxΓ hqyΓ' hneq, hqxΓ⟩
  · have hG : Γx = kgy := groups_shared_key W GW1 Γx hΓx kgy hkgy qy.1 hqyΓ' hqy2
    have hqxkg : qx.1 ∈ kgy.2 := by
      rw [← hG]
      exact hqxΓ
    exact hnbx ⟨kgy, hkgy, hly, hqxkg⟩
  · have hG : Γx = kgx := groups_shared_key W GW1 Γx hΓx kgx hkgx qx.1 hqxΓ hqx2
    have hqykg : qy.1 ∈ kgx.2 := by
      rw [← hG]
      exact hqyΓ'
    exact hnby ⟨kgx, hkgx, hlx, hqykg⟩
  · have hGx : Γx = kgx := groups_shared_key W GW1 Γx hΓx kgx hkgx qx.1 hqxΓ hqx2
    have hGy : Γx = kgy := groups_shared_key W GW1 Γx hΓx kgy hkgy qy.1 hqyΓ' hqy2
    have hkk : kgx = kgy := by
      rw [← hGx, ← hGy]
    exact hne (by rw [hpx1, hpy1, hkk])

/-- Amended **C5.** The composed merge engine is not idempotent (its second
application can collapse nodes further, see the counterexample theorem), but
the `merge_graph_intermediates` pass alone is idempotent: on every
well-formed display graph (distinct `NodeKey` vertices, edges between
existing vertices, no self-loops), applying the intermediate merge to its own
output returns that output unchanged. -/
theorem claim_C5_amended_intermediates_idempotent
    (g : VizGraph) (o : VizOptions) (W : VizWf g) :
    mergeGraphIntermediates (mergeGraphIntermediates g o) o =
      mergeGraphIntermediates g o := by
  have GW2 := intermediateGroups_wf (mergeGraphIntermediates g o) o
  have hsmall : ∀ kg ∈ intermediateGroups (mergeGraphIntermediates g o) o,
      kg.2.length < 2 := by
    intro kg hkg
    by_contra hbig
    have hl : 2 ≤ kg.2.length := by omega
    obtain ⟨x, y, hx, hy, hxy⟩ := two_mem_of_two_le hl (GW2.membersNodup kg hkg)
    obtain ⟨px, hpxm, hpx1, hpxk⟩ := GW2.memberEntry kg hkg x hx
    obtain ⟨py, hpym, hpy1, hpyk⟩ := GW2.memberEntry kg hkg y hy
    have hnt := GW2.keyNontrivial kg hkg
    exact run2_no_two W hpxm hpym
      (by rw [hpx1, hpy1]; exact hxy)
      (hpxk.trans hpyk.symm)
      (by rw [hpxk]; exact hnt.1)
      (by rw [hpxk]; exact hnt.2)
  rw [mergeGraphIntermediates_eq (mergeGraphIntermediates g o) o,
    foldl_step_small (mergeGraphIntermediates g o, [])
      (intermediateGroups (mergeGraphIntermediates g o) o) hsmall]

/-- Witness for the amended C5 theorem: the well-formedness hypotheses hold
on the concrete three-intermediate scenario graph, and the idempotence
equation follows by applying the theorem there. -/
theorem claim_C5_amended_witness :
    VizWf intermediatesScenarioGraph ∧
      mergeGraphIntermediates
          (mergeGraphIntermediates intermediatesScenarioGraph ⟨true, true, true⟩)
          ⟨true, true, true⟩ =
        mergeGraphIntermediates intermediatesScenarioGraph ⟨true, true, true⟩ :=
  ⟨⟨by decide, by decide, by decide, by decide, by decide⟩,
    claim_C5_amended_intermediates_idempotent intermediatesScenarioGraph ⟨true, true, true⟩
      ⟨by decide, by decide, by decide, by decide, by decide⟩⟩

/-! ## Theorems about the layout engine (claims C7 and C8) -/

theorem filter_ge_split (keys : List Nat) (x : Nat) :
    (keys.filter (fun k => x ≤ k)).length =
      (keys.filter (fun k => x + 1 ≤ k)).length +
        (keys.filter (fun k => k = x)).length := by
  induction keys with
  | nil => rfl
  | cons a rest ih =>
    by_cases h1 : x ≤ a
    · by_cases h2 : a = x
      · subst h2
        have h3 : ¬(a + 1 ≤ a) := by omega
        simp only [List.filter_cons]
        simp [h3, ih]
        omega
      · have h3 : x + 1 ≤ a := by omega
        simp only [List.filter_cons]
        simp [h1, h2, h3, ih]
        omega
    · have h2 : ¬(x + 1 ≤ a) := by omega
      have h3 : a ≠ x := by omega
      simp only [List.filter_cons]
      simp [h1, h2, h3, ih]

theorem leastFreeFrom_not_mem (keys : List Nat) :
    ∀ (fuel x : Nat), (keys.filter (fun k => x ≤ k)).length < fuel →
      leastFreeFrom keys fuel x ∉ keys := by
  intro fuel
  induction fuel with
  | zero => intro x h; omega
  | succ fuel ih =>
    intro x h
    unfold leastFreeFrom
    by_cases hx : x ∈ keys
    · rw [if_pos hx]
      apply ih
      have hcount : 0 < (keys.filter (fun k => k = x)).length := by
        apply List.length_pos.mpr
        apply List.ne_nil_of_mem (a := x)
        exact List.mem_filter.mpr ⟨hx, by simp⟩
      have := filter_ge_split keys x
      omega
    · rw [if_neg hx]
      exact hx

theorem leastFreeColumn_not_mem (keys : List Nat) : leastFreeColumn keys ∉ keys := by
  apply leastFreeFrom_not_mem
  have : (keys.filter (fun k => 0 ≤ k)).length ≤ keys.length :=
    List.length_filter_le _ _
  omega

theorem placedKeys_append (l : List (Nat × Nat)) (p : Nat × Nat) :
    placedKeys (l ++ [p]) = placedKeys l ++ [p.1] := by
  simp [placedKeys]

theorem mem_succUnplaced {g : LGraph} {placed : List Nat} {u w : Nat} :
    w ∈ succUnplaced g placed u ↔ (u, w) ∈ g.edges ∧ w ∉ placed := by
  simp only [succUnplaced, List.mem_map, List.mem_filter, decide_eq_true_eq]
  constructor
  · rintro ⟨⟨a, b⟩, ⟨he, h1, h2⟩, hw⟩
    simp only at h1 h2 hw
    subst h1
    subst hw
    exact ⟨he, h2⟩
  · rintro ⟨he, hw⟩
    exact ⟨(u, w), ⟨he, rfl, hw⟩, rfl⟩

theorem succUnplaced_append (g : LGraph) (placed : List Nat) (u v : Nat) :
    succUnplaced g (placed ++ [v]) u =
      (succUnplaced g placed u).filter (fun w => w ≠ v) := by
  unfold succUnplaced
  rw [List.filter_map, List.filter_filter]
  congr 1
  apply List.filter_congr
  intro e _
  by_cases h1 : e.1 = u <;> by_cases h2 : e.2 ∈ placed <;> by_cases h3 : e.2 = v <;>
    simp [h1, h2, h3, Function.comp]

theorem filter_notMem_append_nodes (placed : List Nat) (v : Nat) (ns : List Nat) :
    (ns.filter (fun n => n ∉ placed)).filter (fun n => n ≠ v) =
      ns.filter (fun n => n ∉ placed ++ [v]) := by
  rw [List.filter_filter]
  apply List.filter_congr
  intro n _
  by_cases h1 : n ∈ placed <;> by_cases h2 : n = v <;> simp [h1, h2]

theorem filter_notMem_append_edges (placed : List Nat) (v : Nat)
    (es : List (Nat × Nat)) :
    (es.filter (fun e => e.1 ∉ placed ∧ e.2 ∉ placed)).filter
        (fun e => e.1 ≠ v ∧ e.2 ≠ v) =
      es.filter (fun e => e.1 ∉ placed ++ [v] ∧ e.2 ∉ placed ++ [v]) := by
  rw [List.filter_filter]
  apply List.filter_congr
  intro e _
  by_cases h1 : e.1 ∈ placed <;> by_cases h2 : e.2 ∈ placed <;>
    by_cases h3 : e.1 = v <;> by_cases h4 : e.2 = v <;> simp [h1, h2, h3, h4]

theorem lookupLoc_append_old {l : List (Nat × Nat)} {u : Nat}
    (hu : u ∈ placedKeys l) (p : Nat × Nat) :
    lookupLoc (l ++ [p]) u = lookupLoc l u := by
  unfold lookupLoc
  rw [List.find?_append]
  cases hf : l.find? (fun q => q.1 = u) with
  | some q => rfl
  | none =>
    exfalso
    rw [List.find?_eq_none] at hf
    obtain ⟨q, hq, hq1⟩ := List.mem_map.mp hu
    exact hf q hq (by simp [hq1])

theorem lookupLoc_append_new {l : List (Nat × Nat)} {u x : Nat}
    (hu : u ∉ placedKeys l) :
    lookupLoc (l ++ [(u, x)]) u = x := by
  unfold lookupLoc
  rw [List.find?_append]
  have hf : l.find? (fun q => q.1 = u) = none := by
    rw [List.find?_eq_none]
    intro q hq hq1
    simp only [decide_eq_true_eq] at hq1
    exact hu (List.mem_map.mpr ⟨q, hq, hq1⟩)
  rw [hf]
  simp

theorem columnsOk_step {g : LGraph} {st : LayoutState} {node : Nat}
    (inv : LayoutInv g st)
    (hnp : node ∉ placedKeys st.locations)
    (keys : List Nat)
    (hsurvive : ∀ u, u ∈ placedKeys st.locations →
      succUnplaced g (placedKeys st.locations ++ [node]) u ≠ [] →
      lookupLoc st.locations u ∈ keys)
    (NX : Nat) (hNX : NX ∉ keys) :
    columnsOk g (st.locations ++ [(node, NX)]) := by
  intro k y z hy hz hyz
  by_cases hk : k ≤ st.locations.length
  · have htake : (st.locations ++ [(node, NX)]).take k = st.locations.take k :=
      List.take_append_of_le_length hk
    rw [liveAt, htake] at hy hz
    have hmemloc : ∀ w, w ∈ placedKeys (st.locations.take k) →
        w ∈ placedKeys st.locations := by
      intro w hw
      exact ((List.take_sublist k st.locations).map (·.1)).subset hw
    rw [lookupLoc_append_old (hmemloc y hy.1), lookupLoc_append_old (hmemloc z hz.1)]
    exact inv.colsOk k y z hy hz hyz
  · have hlen : (st.locations ++ [(node, NX)]).length ≤ k := by
      simp only [List.length_append, List.length_cons, List.length_nil]
      omega
    have htake : (st.locations ++ [(node, NX)]).take k = st.locations ++ [(node, NX)] :=
      List.take_of_length_le hlen
    rw [liveAt, htake, placedKeys_append] at hy hz
    obtain ⟨hy1, vy, hvy, hvy2⟩ := hy
    obtain ⟨hz1, vz, hvz, hvz2⟩ := hz
    -- a live old node always has its column among `keys`
    have hlive : ∀ w vw, w ∈ placedKeys st.locations → (w, vw) ∈ g.edges →
        vw ∉ placedKeys st.locations ++ [node] → lookupLoc st.locations w ∈ keys := by
      intro w vw hw hvw hvw2
      apply hsurvive w hw
      intro hS
      have : vw ∈ succUnplaced g (placedKeys st.locations ++ [node]) w :=
        mem_succUnplaced.mpr ⟨hvw, hvw2⟩
      rw [hS] at this
      cases this
    by_cases hyn : y = node
    · by_cases hzn : z = node
      · exact absurd (hyn.trans hzn.symm) hyz
      · have hz1' : z ∈ placedKeys st.locations := by
          rcases List.mem_append.mp hz1 with h | h
          · exact h
          · simp only [List.mem_singleton] at h
            exact absurd h hzn
        rw [hyn, lookupLoc_append_new hnp, lookupLoc_append_old hz1']
        intro heq
        exact hNX (heq ▸ hlive z vz hz1' hvz hvz2)
    · have hy1' : y ∈ placedKeys st.locations := by
        rcases List.mem_append.mp hy1 with h | h
        · exact h
        · simp only [List.mem_singleton] at h
          exact absurd h hyn
      by_cases hzn : z = node
      · rw [hzn, lookupLoc_append_new hnp, lookupLoc_append_old hy1']
        intro heq
        exact hNX (heq ▸ hlive y vy hy1' hvy hvy2)
      · have hz1' : z ∈ placedKeys st.locations := by
          rcases List.mem_append.mp hz1 with h | h
          · exact h
          · simp only [List.mem_singleton] at h
            exact absurd h hzn
        rw [lookupLoc_append_old hy1', lookupLoc_append_old hz1']
        have hyl : liveAt g st.locations st.locations.length y := by
          refine ⟨by simpa [List.take_length] using hy1', vy, hvy, ?_⟩
          rw [List.take_length]
          intro hmem
          exact hvy2 (List.mem_append_left _ hmem)
        have hzl : liveAt g st.locations st.locations.length z := by
          refine ⟨by simpa [List.take_length] using hz1', vz, hvz, ?_⟩
          rw [List.take_length]
          intro hmem
          exact hvz2 (List.mem_append_left _ hmem)
        exact inv.colsOk st.locations.length y z hyl hzl hyz

theorem addUnblockedNode_inv {g : LGraph} {st : LayoutState} {node : Nat}
    {st' : LayoutState} {x : Nat}
    (inv : LayoutInv g st) (h : st.addUnblockedNode node = some (st', x)) :
    LayoutInv g st' := by
  unfold LayoutState.addUnblockedNode at h
  split at h
  case isFalse => exact absurd h (by simp)
  case isTrue hguard =>
  obtain ⟨hnodeB, hdeg⟩ := hguard
  simp only [Option.some.injEq, Prod.mk.injEq] at h
  obtain ⟨hst', hx⟩ := h
  subst hst'
  clear hx
  have hnode : node ∈ st.todo.nodes := by simpa [LGraph.hasNode] using hnodeB
  have hmem := List.mem_filter.mp (inv.todoNodes ▸ hnode)
  have hng : node ∈ g.nodes := hmem.1
  have hnp : node ∉ placedKeys st.locations := by simpa using hmem.2
  have hpredPlaced : ∀ e ∈ g.edges, e.2 = node → e.1 ∈ placedKeys st.locations := by
    intro e he h2
    by_contra h1
    have het : e ∈ st.todo.edges := by
      rw [inv.todoEdges]
      refine List.mem_filter.mpr ⟨he, ?_⟩
      simp only [decide_eq_true_eq]
      exact ⟨h1, h2 ▸ hnp⟩
    have hmemf : e ∈ st.todo.edges.filter (fun e => e.2 = node) :=
      List.mem_filter.mpr ⟨het, by simp [h2]⟩
    have hpos : 0 < st.todo.inDegree node := by
      unfold LGraph.inDegree
      exact List.length_pos.mpr (List.ne_nil_of_mem hmemf)
    omega
  have hself : (node, node) ∉ g.edges := fun he => hnp (hpredPlaced (node, node) he rfl)
  have hsucc : st.todo.successors node =
      succUnplaced g (placedKeys st.locations ++ [node]) node := by
    unfold LGraph.successors succUnplaced
    rw [inv.todoEdges, List.filter_filter]
    congr 1
    apply List.filter_congr
    rintro ⟨a, b⟩ he
    by_cases h1 : a = node
    · by_cases h2 : b ∈ placedKeys st.locations
      · simp [h1, h2]
      · by_cases h3 : b = node
        · rw [h1, h3] at he
          exact absurd he hself
        · simp [h1, h2, h3, hnp]
    · simp [h1]
  -- facts shared below
  have hkeys : placedKeys (st.locations ++
      [(node, leastFreeColumn ((st.activeColumns.filterMap (fun p =>
        if node ∈ p.2 then
          (let rest := p.2.filter (fun n => n ≠ node)
          if rest = [] then none else some (p.1, rest))
        else some p)).map (·.1)))]) = placedKeys st.locations ++ [node] := by
    simp [placedKeys]
  refine { nodupKeys := ?_, keysSub := ?_, todoNodes := ?_, todoEdges := ?_,
           topo := ?_, activeSound := ?_, activeComplete := ?_, colsOk := ?_ }
  · simp only [hkeys]
    simpa [List.nodup_append] using ⟨inv.nodupKeys, hnp⟩
  · simp only [hkeys]
    intro u hu
    rcases List.mem_append.mp hu with hu | hu
    · exact inv.keysSub u hu
    · simp only [List.mem_singleton] at hu
      exact hu ▸ hng
  · simp only [hkeys, LGraph.removeNode, inv.todoNodes]
    exact filter_notMem_append_nodes _ _ _
  · simp only [hkeys, LGraph.removeNode, inv.todoEdges]
    exact filter_notMem_append_edges _ _ _
  · simp only [hkeys]
    intro e he h2
    rcases List.mem_append.mp h2 with h2 | h2
    · obtain ⟨h1, hlt⟩ := inv.topo e he h2
      refine ⟨List.mem_append_left _ h1, ?_⟩
      rw [List.indexOf_append_of_mem h1, List.indexOf_append_of_mem h2]
      exact hlt
    · simp only [List.mem_singleton] at h2
      have h1 : e.1 ∈ placedKeys st.locations := hpredPlaced e he h2
      refine ⟨List.mem_append_left _ h1, ?_⟩
      rw [List.indexOf_append_of_mem h1, h2, List.indexOf_append_of_not_mem hnp]
      simp only [List.indexOf_cons_self, Nat.add_zero]
      exact List.indexOf_lt_length.mpr h1
  · -- activeSound
    simp only [hkeys]
    intro p hp
    have hmemIf : p ∈ (st.activeColumns.filterMap (fun q =>
        if node ∈ q.2 then
          (let rest := q.2.filter (fun n => n ≠ node)
          if rest = [] then none else some (q.1, rest))
        else some q)) ∨
        (st.todo.successors node ≠ [] ∧
          p = (leastFreeColumn ((st.activeColumns.filterMap (fun q =>
            if node ∈ q.2 then
              (let rest := q.2.filter (fun n => n ≠ node)
              if rest = [] then none else some (q.1, rest))
            else some q)).map (·.1)), st.todo.successors node)) := by
      by_cases hout : st.todo.successors node = []
      · rw [if_pos hout] at hp
        exact Or.inl hp
      · rw [if_neg hout] at hp
        rcases List.mem_append.mp hp with hp | hp
        · exact Or.inl hp
        · exact Or.inr ⟨hout, by simpa using hp⟩
    rcases hmemIf with hp | ⟨hout, hp⟩
    · obtain ⟨q, hq, hfq⟩ := List.mem_filterMap.mp hp
      obtain ⟨u, hu, hq1, hq2, hq3⟩ := inv.activeSound q hq
      by_cases hmq : node ∈ q.2
      · rw [if_pos hmq] at hfq
        simp only at hfq
        split at hfq
        · exact absurd hfq (by simp)
        · rename_i hrest
          simp only [Option.some.injEq] at hfq
          subst hfq
          refine ⟨u, List.mem_append_left _ hu, ?_, ?_, by simpa using hrest⟩
          · simpa [lookupLoc_append_old hu] using hq1
          · rw [succUnplaced_append, ← hq2]
      · rw [if_neg hmq] at hfq
        simp only [Option.some.injEq] at hfq
        subst hfq
        refine ⟨u, List.mem_append_left _ hu, ?_, ?_, hq3⟩
        · simpa [lookupLoc_append_old hu] using hq1
        · rw [succUnplaced_append, ← hq2]
          exact (List.filter_eq_self.mpr (fun w hw => by
            simp only [decide_eq_true_eq]
            intro hwv
            exact hmq (hwv ▸ hw))).symm
    · subst hp
      refine ⟨node, List.mem_append_right _ (by simp), ?_, ?_, ?_⟩
      · rw [lookupLoc_append_new hnp]
      · rw [hsucc]
      · exact hout
  · -- activeComplete
    simp only [hkeys]
    intro u hu hne
    rcases List.mem_append.mp hu with hu | hu
    · -- old placed node
      have hSne : succUnplaced g (placedKeys st.locations) u ≠ [] := by
        intro hS
        rw [succUnplaced_append, hS] at hne
        exact hne rfl
      have hentry := inv.activeComplete u hu hSne
      have hloc' : lookupLoc (st.locations ++ [(node, leastFreeColumn
          ((st.activeColumns.filterMap (fun q =>
            if node ∈ q.2 then
              (let rest := q.2.filter (fun n => n ≠ node)
              if rest = [] then none else some (q.1, rest))
            else some q)).map (·.1)))]) u = lookupLoc st.locations u :=
        lookupLoc_append_old hu _
      rw [hloc', succUnplaced_append]
      have hmemf : (lookupLoc st.locations u,
          (succUnplaced g (placedKeys st.locations) u).filter (fun w => w ≠ node)) ∈
          (st.activeColumns.filterMap (fun q =>
            if node ∈ q.2 then
              (let rest := q.2.filter (fun n => n ≠ node)
              if rest = [] then none else some (q.1, rest))
            else some q)) := by
        apply List.mem_filterMap.mpr
        refine ⟨(lookupLoc st.locations u, succUnplaced g (placedKeys st.locations) u),
          hentry, ?_⟩
        by_cases hmq : node ∈ succUnplaced g (placedKeys st.locations) u
        · rw [if_pos hmq]
          simp only
          split
          · rename_i hrest
            rw [← succUnplaced_append] at hrest
            exact absurd hrest hne
          · rfl
        · rw [if_neg hmq]
          have : (succUnplaced g (placedKeys st.locations) u).filter (fun w => w ≠ node) =
              succUnplaced g (placedKeys st.locations) u :=
            List.filter_eq_self.mpr (fun w hw => by
              simp only [decide_eq_true_eq]
              intro hwv
              exact hmq (hwv ▸ hw))
          rw [this]
      by_cases hout : st.todo.successors node = []
      · rw [if_pos hout]
        exact hmemf
      · rw [if_neg hout]
        exact List.mem_append_left _ hmemf
    · -- the freshly placed node
      simp only [List.mem_singleton] at hu
      subst hu
      rw [lookupLoc_append_new hnp, ← hsucc]
      have hout : st.todo.successors u ≠ [] := by
        rw [hsucc]
        exact hne
      rw [if_neg hout]
      exact List.mem_append_right _ (by simp)
  · -- colsOk
    apply columnsOk_step inv hnp _ ?_ _ (leastFreeColumn_not_mem _)
    intro u hu hne
    have hSne : succUnplaced g (placedKeys st.locations) u ≠ [] := by
      intro hS
      rw [succUnplaced_append, hS] at hne
      exact hne rfl
    have hentry := inv.activeComplete u hu hSne
    apply List.mem_map.mpr
    by_cases hmq : node ∈ succUnplaced g (placedKeys st.locations) u
    · refine ⟨(lookupLoc st.locations u,
        (succUnplaced g (placedKeys st.locations) u).filter (fun n => n ≠ node)), ?_, rfl⟩
      apply List.mem_filterMap.mpr
      refine ⟨(lookupLoc st.locations u, succUnplaced g (placedKeys st.locations) u),
        hentry, ?_⟩
      rw [if_pos hmq]
      simp only
      split
      · rename_i hrest
        rw [← succUnplaced_append] at hrest
        exact absurd hrest hne
      · rfl
    · refine ⟨(lookupLoc st.locations u, succUnplaced g (placedKeys st.locations) u),
        ?_, rfl⟩
      apply List.mem_filterMap.mpr
      exact ⟨(lookupLoc st.locations u, succUnplaced g (placedKeys st.locations) u),
        hentry, by rw [if_neg hmq]⟩

theorem addUnblockedNode_map_inv {g : LGraph} {st st' : LayoutState} {node : Nat}
    (inv : LayoutInv g st) (h : (st.addUnblockedNode node).map (·.1) = some st') :
    LayoutInv g st' := by
  cases hc : st.addUnblockedNode node with
  | none => rw [hc] at h; exact absurd h (by simp)
  | some p =>
    rw [hc] at h
    have h' : some p.1 = some st' := h
    injection h' with h'
    subst h'
    exact addUnblockedNode_inv inv (by rw [hc])

theorem phaseFold_inv {g : LGraph} (avoid : Nat) :
    ∀ (l : List Nat) (acc : Option (LayoutState × List Nat)),
      (∀ s ub, acc = some (s, ub) → LayoutInv g s) →
      ∀ s' ub', l.foldl (fun (acc : Option (LayoutState × List Nat)) node =>
        match acc with
        | none => none
        | some (st, unblocked) =>
          if node ≠ avoid ∧ st.todo.hasNode node ∧ st.todo.inDegree node = 0 then
            if st.todo.outDegree node = 0 then
              match st.addUnblockedNode node with
              | none => none
              | some (st', _) => some (st', unblocked)
            else some (st, if node ∈ unblocked then unblocked else unblocked ++ [node])
          else some (st, unblocked)) acc = some (s', ub') →
      LayoutInv g s' := by
  intro l
  induction l with
  | nil =>
    intro acc hacc s' ub' h
    exact hacc s' ub' h
  | cons n rest ih =>
    intro acc hacc s' ub' h
    simp only [List.foldl_cons] at h
    refine ih _ ?_ s' ub' h
    intro s ub hsub
    cases acc with
    | none => simp at hsub
    | some p =>
      obtain ⟨st0, ub0⟩ := p
      have hinv0 := hacc st0 ub0 rfl
      simp only at hsub
      split at hsub
      · split at hsub
        · cases hadd : st0.addUnblockedNode n with
          | none => rw [hadd] at hsub; exact absurd hsub (by simp)
          | some q =>
            rw [hadd] at hsub
            simp only [Option.some.injEq, Prod.mk.injEq] at hsub
            obtain ⟨h1, _⟩ := hsub
            exact h1 ▸ addUnblockedNode_inv hinv0 (by rw [hadd])
        · simp only [Option.some.injEq, Prod.mk.injEq] at hsub
          exact hsub.1 ▸ hinv0
      · simp only [Option.some.injEq, Prod.mk.injEq] at hsub
        exact hsub.1 ▸ hinv0

theorem placeFold_inv {g : LGraph} :
    ∀ (l : List Nat) (acc : Option LayoutState),
      (∀ s, acc = some s → LayoutInv g s) →
      ∀ s', l.foldl (fun (acc : Option LayoutState) node =>
        match acc with
        | none => none
        | some st => (st.addUnblockedNode node).map (·.1)) acc = some s' →
      LayoutInv g s' := by
  intro l
  induction l with
  | nil => intro acc hacc s' h; exact hacc s' h
  | cons n rest ih =>
    intro acc hacc s' h
    simp only [List.foldl_cons] at h
    refine ih _ ?_ s' h
    intro s hs
    cases acc with
    | none => simp at hs
    | some st0 =>
      exact addUnblockedNode_map_inv (hacc st0 rfl) hs

theorem addActiveUnblocked_inv {g : LGraph} :
    ∀ (fuel : Nat) (st : LayoutState) (avoid : Nat) (st' : LayoutState),
      LayoutInv g st → LayoutState.addActiveUnblocked fuel st avoid = some st' →
      LayoutInv g st' := by
  intro fuel
  induction fuel with
  | zero => intro st avoid st' _ h; exact absurd h (by simp [LayoutState.addActiveUnblocked])
  | succ fuel ih =>
    intro st avoid st' inv h
    unfold LayoutState.addActiveUnblocked at h
    simp only at h
    cases hphase : ((st.activeColumns.flatMap (·.2)).eraseDups).foldl _ (some (st, [])) with
    | none => rw [hphase] at h; exact absurd h (by simp)
    | some p =>
      rw [hphase] at h
      obtain ⟨st1, unblocked⟩ := p
      have hinv1 : LayoutInv g st1 :=
        phaseFold_inv avoid _ (some (st, []))
          (fun s ub hsu => by
            simp only [Option.some.injEq, Prod.mk.injEq] at hsu
            exact hsu.1 ▸ inv) st1 unblocked hphase
      simp only at h
      split at h
      · simp only [Option.some.injEq] at h
        exact h ▸ hinv1
      · cases hfold : (sortByKeyDesc (st1.todo.outDegree) unblocked).foldl
            (fun (acc : Option LayoutState) node =>
              match acc with
              | none => none
              | some st => (st.addUnblockedNode node).map (·.1)) (some st1) with
        | none => rw [hfold] at h; exact absurd h (by simp)
        | some st2 =>
          rw [hfold] at h
          have hinv2 : LayoutInv g st2 :=
            placeFold_inv _ (some st1)
              (fun s hs => by
                simp only [Option.some.injEq] at hs
                exact hs ▸ hinv1) st2 hfold
          exact ih st2 avoid st' hinv2 h

theorem walkLongestPath_inv {g : LGraph}
    {recurse : LayoutState → LGraph → Option LayoutState}
    (hrec : ∀ st xg st', LayoutInv g st → recurse st xg = some st' → LayoutInv g st') :
    ∀ (path : List Nat) (st st' : LayoutState),
      LayoutInv g st → walkLongestPath recurse st path = some st' → LayoutInv g st' := by
  intro path
  induction path with
  | nil =>
    intro st st' inv h
    simp only [walkLongestPath, Option.some.injEq] at h
    exact h ▸ inv
  | cons node rest ih =>
    intro st st' inv h
    simp only [walkLongestPath] at h
    cases hau : LayoutState.addActiveUnblocked (st.todo.nodes.length + 1) st node with
    | none => rw [hau] at h; exact absurd h (by simp)
    | some st1 =>
      rw [hau] at h
      have hinv1 := addActiveUnblocked_inv _ st node st1 inv hau
      simp only at h
      split at h
      · split at h
        · cases hadd : st1.addUnblockedNode node with
          | none => rw [hadd] at h; exact absurd h (by simp)
          | some q =>
            rw [hadd] at h
            simp only at h
            exact ih q.1 st' (addUnblockedNode_inv hinv1 (by rw [hadd])) h
        · cases hr : recurse st1 (st1.todo.subgraph (ancestorsOf st1.todo node ++ [node])) with
          | none => rw [hr] at h; exact absurd h (by simp)
          | some st2 =>
            rw [hr] at h
            simp only at h
            exact ih st2 st' (hrec st1 _ st2 hinv1 hr) h
      · exact absurd h (by simp)

theorem addConnectedGraph_inv {g : LGraph} :
    ∀ (fuel : Nat) (st : LayoutState) (xg : LGraph) (st' : LayoutState),
      LayoutInv g st → addConnectedGraph fuel st xg = some st' → LayoutInv g st' := by
  intro fuel
  induction fuel with
  | zero => intro st xg st' _ h; exact absurd h (by simp [addConnectedGraph])
  | succ fuel ih =>
    intro st xg st' inv h
    unfold addConnectedGraph at h
    exact walkLongestPath_inv (fun s x s' hs hx => ih s x s' hs hx) _ st st' inv h

theorem layoutInv_init (g : LGraph) : LayoutInv g ⟨g, [], [], 0⟩ := by
  refine { nodupKeys := List.nodup_nil, keysSub := by simp [placedKeys],
           todoNodes := ?_, todoEdges := ?_, topo := ?_,
           activeSound := by simp, activeComplete := by simp [placedKeys],
           colsOk := ?_ }
  · exact (List.filter_eq_self.mpr (fun a _ => by simp [placedKeys])).symm
  · exact (List.filter_eq_self.mpr (fun a _ => by simp [placedKeys])).symm
  · intro e _ h2
    simp [placedKeys] at h2
  · intro k u v hu _ _
    obtain ⟨hu1, _⟩ := hu
    simp [placedKeys] at hu1

theorem layout_final_inv {g : LGraph} {L : List (Nat × Nat) × Nat}
    (h : layout g = some L) :
    ∃ st : LayoutState, LayoutInv g st ∧ st.locations = L.1 ∧ st.todo.nodes = [] := by
  unfold layout at h
  cases hfold : (weaklyConnectedComponents g).foldl
      (fun (acc : Option LayoutState) comp =>
        match acc with
        | none => none
        | some st => addConnectedGraph (g.nodes.length + 1) st (g.subgraph comp))
      (some ⟨g, [], [], 0⟩) with
  | none => rw [hfold] at h; exact absurd h (by simp)
  | some st =>
    rw [hfold] at h
    simp only at h
    split at h
    · rename_i hempty
      simp only [Option.some.injEq] at h
      have hinv : LayoutInv g st := by
        have : ∀ (comps : List (List Nat)) (acc : Option LayoutState),
            (∀ s, acc = some s → LayoutInv g s) →
            ∀ s', comps.foldl (fun (acc : Option LayoutState) comp =>
              match acc with
              | none => none
              | some st => addConnectedGraph (g.nodes.length + 1) st (g.subgraph comp))
              acc = some s' → LayoutInv g s' := by
          intro comps
          induction comps with
          | nil => intro acc hacc s' hh; exact hacc s' hh
          | cons c rest ih =>
            intro acc hacc s' hh
            simp only [List.foldl_cons] at hh
            refine ih _ ?_ s' hh
            intro s hs
            cases acc with
            | none => simp at hs
            | some st0 =>
              exact addConnectedGraph_inv _ st0 _ s (hacc st0 rfl) hs
        exact this _ (some ⟨g, [], [], 0⟩)
          (fun s hs => by
            simp only [Option.some.injEq] at hs
            exact hs ▸ layoutInv_init g) st hfold
      exact ⟨st, hinv, by rw [← h], hempty⟩
    · exact absurd h (by simp)

theorem layoutRows_nodes (g : LGraph) (locations : List (Nat × Nat)) (xMax : Nat) :
    (layoutRows g locations xMax).map (·.node) = placedKeys locations := by
  unfold layoutRows
  suffices h : ∀ (locs : List (Nat × Nat)) (acc : List LayoutRowE × List (Nat × List Nat)),
      ((locs.foldl (fun (acc : List LayoutRowE × List (Nat × List Nat)) loc =>
        let rowData := acc.2.foldl
          (fun (row : List (Nat × Nat) × List (Nat × Nat × List Nat) × List (Nat × List Nat))
              oe =>
            let terminating := if loc.1 ∈ oe.2
              then row.1 ++ [(xMax - lookupLoc locations oe.1, oe.1)] else row.1
            let dests := oe.2.filter (fun n => n ≠ loc.1)
            let continuing := if dests.isEmpty then row.2.1
              else row.2.1 ++ [(xMax - lookupLoc locations oe.1, oe.1, dests)]
            (terminating, continuing, row.2.2 ++ [(oe.1, dests)])) ([], [], [])
        (acc.1 ++ [⟨loc.1, xMax - loc.2, sortRowPairs rowData.1,
            sortRowTriples rowData.2.1⟩],
          rowData.2.2 ++ [(loc.1, g.successors loc.1)])) acc).1).map (·.node) =
        acc.1.map (·.node) ++ placedKeys locs by
    simpa using h locations ([], [])
  intro locs
  induction locs with
  | nil => intro acc; simp [placedKeys]
  | cons loc rest ih =>
    intro acc
    simp only [List.foldl_cons]
    rw [ih]
    simp [placedKeys]

/-- **C7.** For every graph on which the `Layout` constructor succeeds: the
rows produced by `Layout.__iter__` list the nodes in placement order,
every graph node is placed, and every node appears strictly after every
one of its graph predecessors (for every edge, the source's row index is
strictly below the target's). -/
theorem claim_C7_layout_places_after_predecessors
    (g : LGraph) (L : List (Nat × Nat) × Nat) (h : layout g = some L) :
    ((layoutRows g L.1 L.2).map (·.node) = placedKeys L.1) ∧
    (∀ n ∈ g.nodes, n ∈ placedKeys L.1) ∧
    (∀ e ∈ g.edges, e.2 ∈ placedKeys L.1 →
      e.1 ∈ placedKeys L.1 ∧
        List.indexOf e.1 (placedKeys L.1) < List.indexOf e.2 (placedKeys L.1)) := by
  obtain ⟨st, hinv, hloc, hempty⟩ := layout_final_inv h
  rw [← hloc]
  refine ⟨layoutRows_nodes g st.locations L.2, ?_, ?_⟩
  · intro n hn
    have hfn := hinv.todoNodes ▸ hempty
    by_contra hnk
    have : n ∈ st.todo.nodes := by
      rw [hinv.todoNodes]
      exact List.mem_filter.mpr ⟨hn, by simpa using hnk⟩
    rw [hempty] at this
    cases this
  · intro e he h2
    exact hinv.topo e he h2

/-- **C8.** For every graph on which the `Layout` constructor succeeds: the
number of distinct columns used is at most the number of nodes, and at no
point during placement are two distinct nodes that both still have a live
(not yet terminated) outgoing edge assigned the same column. -/
theorem claim_C8_layout_column_bounds
    (g : LGraph) (L : List (Nat × Nat) × Nat) (h : layout g = some L) :
    (L.1.map (·.2)).toFinset.card ≤ g.nodes.length ∧ columnsOk g L.1 := by
  obtain ⟨st, hinv, hloc, hempty⟩ := layout_final_inv h
  rw [← hloc]
  constructor
  · have h1 : (st.locations.map (·.2)).toFinset.card ≤ (st.locations.map (·.2)).length :=
      List.toFinset_card_le _
    have h2 : (st.locations.map (·.2)).length = (placedKeys st.locations).length := by
      simp [placedKeys]
    have h3 : (placedKeys st.locations).length ≤ g.nodes.length :=
      (List.subperm_of_subset hinv.nodupKeys
        (fun u hu => hinv.keysSub u hu)).length_le
    omega
  · exact hinv.colsOk

/-- Witness for C7 at the diamond graph `0→1, 0→2, 1→3, 2→3`. -/
theorem claim_C7_witness :
    ((layoutRows ⟨[0, 1, 2, 3], [(0, 1), (0, 2), (1, 3), (2, 3)]⟩
        [(0, 0), (2, 1), (1, 0), (3, 0)] 1).map (·.node) =
      placedKeys [(0, 0), (2, 1), (1, 0), (3, 0)]) ∧
    (∀ n ∈ ([0, 1, 2, 3] : List Nat), n ∈ placedKeys [(0, 0), (2, 1), (1, 0), (3, 0)]) ∧
    (∀ e ∈ ([(0, 1), (0, 2), (1, 3), (2, 3)] : List (Nat × Nat)),
      e.2 ∈ placedKeys [(0, 0), (2, 1), (1, 0), (3, 0)] →
      e.1 ∈ placedKeys [(0, 0), (2, 1), (1, 0), (3, 0)] ∧
        List.indexOf e.1 (placedKeys [(0, 0), (2, 1), (1, 0), (3, 0)]) <
          List.indexOf e.2 (placedKeys [(0, 0), (2, 1), (1, 0), (3, 0)])) :=
  claim_C7_layout_places_after_predecessors
    ⟨[0, 1, 2, 3], [(0, 1), (0, 2), (1, 3), (2, 3)]⟩
    ([(0, 0), (2, 1), (1, 0), (3, 0)], 1) (by decide)

/-- Witness for C8 at the diamond graph `0→1, 0→2, 1→3, 2→3`. -/
theorem claim_C8_witness :
    (([(0, 0), (2, 1), (1, 0), (3, 0)] : List (Nat × Nat)).map (·.2)).toFinset.card ≤
      ([0, 1, 2, 3] : List Nat).length ∧
    columnsOk ⟨[0, 1, 2, 3], [(0, 1), (0, 2), (1, 3), (2, 3)]⟩
      [(0, 0), (2, 1), (1, 0), (3, 0)] :=
  claim_C8_layout_column_bounds
    ⟨[0, 1, 2, 3], [(0, 1), (0, 2), (1, 3), (2, 3)]⟩
    ([(0, 0), (2, 1), (1, 0), (3, 0)], 1) (by decide)

end PipeBase
